import Mathlib

/-!
# Log extraction by date (`src/extract_logs.cpp`)

A shallow embedding of `LogRetriever`: the date validator, the line-boundary
resolvers, the position estimate, the two binary searches and the driver
`findDateBoundaries`, followed by the properties of the specification.

Conventions of the embedding.

* A byte is a `Nat` (the value of the `unsigned char`); the mapped file is a
  `List Nat` and `file_size` is its length. A `std::string` is a `List Nat` too.
* `off_t` is `Int`, `-1` is the "not found" sentinel of the source.
  Where the source compares an `off_t` with a `size_t` the signed operand is
  converted first (`toSize`), as C++ does.
* Every read of `mapped_file` goes through `readByte` / `readBytes`. A read that
  leaves `[0, file_size)` is undefined behaviour in the source; the embedding
  stops there with `Outcome.fault`, recording the offset and the byte count.
* The loops are recursions on a counter that is at least the number of
  iterations the source loop can make, so that the counter never cuts a loop
  short (see `binarySearchLoop_fuel` for the binary search).
-/

namespace LogRetriever

/-! ## Bytes and strings -/

/-- The bytes of an ASCII string literal. -/
def ascii (s : String) : List Nat := s.toList.map Char.toNat

/-- Field `DATE_LENGTH` of the class. -/
def DATE_LENGTH : Nat := 10

/-- Field `BUFFER_SIZE` of the class. -/
def BUFFER_SIZE : Nat := 16384

/-- The C function `isspace` in the "C" locale: space, and `\t \n \v \f \r`. -/
def isspace (c : Nat) : Bool := c == 32 || (decide (9 ≤ c) && decide (c ≤ 13))

/-- The C function `isdigit`. -/
def isdigit (c : Nat) : Bool := decide (48 ≤ c) && decide (c ≤ 57)

/-- Comparison `a < b` of two `std::string`s: lexicographic on the byte values,
a proper initial segment being smaller. -/
def strLess : List Nat → List Nat → Bool
  | [], [] => false
  | [], _ :: _ => true
  | _ :: _, [] => false
  | a :: as, b :: bs => if a < b then true else if b < a then false else strLess as bs

/-- Method `std::string::substr(pos, n)` for `pos` inside the string. -/
def substr (s : List Nat) (pos n : Nat) : List Nat := (s.drop pos).take n

/-! ## `std::stoi` -/

/-- Value of a run of decimal digits, most significant first. -/
def digitsValue (ds : List Nat) : Nat := ds.foldl (fun acc d => acc * 10 + (d - 48)) 0

/-- The function `std::stoi(str)` in base 10: leading white space is skipped, one
sign is accepted, then the longest run of digits is converted and whatever
follows it is ignored. `none` stands for the exception thrown when there is
no digit (`std::invalid_argument`) or the value does not fit an `int`
(`std::out_of_range`). -/
def stoi (s : List Nat) : Option Int :=
  let s1 := s.dropWhile isspace
  let neg : Bool := s1.head? == some 45
  let s2 := if s1.head? == some 45 || s1.head? == some 43 then s1.tail else s1
  let ds := s2.takeWhile isdigit
  if ds.isEmpty then none
  else
    let v : Int := if neg then -(digitsValue ds : Int) else (digitsValue ds : Int)
    if v < -2147483648 || v > 2147483647 then none else some v

/-! ## Date validation -/

/-- Struct `DateComponents`. -/
structure DateComponents where
  year : Int
  month : Int
  day : Int
deriving DecidableEq, Repr

/-- Method `parseDateComponents`; `none` when one of the three `std::stoi` calls
throws. -/
def parseDateComponents (date : List Nat) : Option DateComponents :=
  match stoi (substr date 0 4) with
  | none => none
  | some y =>
    match stoi (substr date 5 2) with
    | none => none
    | some m =>
      match stoi (substr date 8 2) with
      | none => none
      | some d => some ⟨y, m, d⟩

/-- Method `isLeapYear`; `%` of C++ truncates, hence `Int.tmod`. -/
def isLeapYear (year : Int) : Bool :=
  (Int.tmod year 4 == 0 && Int.tmod year 100 != 0) || Int.tmod year 400 == 0

/-- The table `daysInMonth` of `validateDateComponents`. -/
def daysInMonth : List Int := [31, 28, 31, 30, 31, 30, 31, 31, 30, 31, 30, 31]

/-- Method `validateDateComponents`. -/
def validateDateComponents (dc : DateComponents) : Bool :=
  if dc.year < 1900 || dc.year > 2100 then false
  else if dc.month < 1 || dc.month > 12 then false
  else
    let maxDays0 := daysInMonth.getD (dc.month - 1).toNat 0
    let maxDays := if dc.month == 2 && isLeapYear dc.year then 29 else maxDays0
    decide (dc.day ≥ 1) && decide (dc.day ≤ maxDays)

/-- Method `validateDate`: the length and the two dashes are tested first, then the
fields are parsed; an exception of the parse is caught and gives `false`. -/
def validateDate (date : List Nat) : Bool :=
  if date.length != DATE_LENGTH || date.getD 4 0 != 45 || date.getD 7 0 != 45 then false
  else
    match parseDateComponents date with
    | none => false
    | some dc => validateDateComponents dc

/-! ## Calendar arithmetic of `calculateDaysDifference`

The source calls `strptime` and `mktime` of the C library. They are modelled
here for the format `"%Y-%m-%d"`, a zero-initialised `struct tm`, and a local
time zone without clock changes (UTC), in which every day has 86400 seconds. -/

/-- The fields of `struct tm` that `mktime` reads here. -/
structure Tm where
  tm_year : Int
  tm_mon : Int
  tm_mday : Int
deriving DecidableEq, Repr

/-- Modelled from the C library: the digit loop of a numeric `strptime`
conversion, which reads at most `n` digits and stops early once another digit
would exceed the largest value `hi` of the field. -/
def getNumberLoop (hi : Nat) : Nat → Nat → List Nat → Nat × List Nat
  | 0, val, rp => (val, rp)
  | _ + 1, val, [] => (val, [])
  | n + 1, val, c :: rp =>
    let val1 := val * 10 + (c - 48)
    if decide (0 < n) && decide (val1 * 10 ≤ hi) && (rp.head?.map isdigit == some true) then
      getNumberLoop hi n val1 rp
    else (val1, rp)

/-- Modelled from the C library: a numeric `strptime` conversion with range
`[lo, hi]` and at most `n` digits; white space before the number is skipped, and
`none` is the failure of the conversion. -/
def getNumber (lo hi n : Nat) (s : List Nat) : Option (Nat × List Nat) :=
  let rp := s.dropWhile isspace
  if rp.head?.map isdigit == some true then
    let r := getNumberLoop hi n 0 rp
    if r.1 < lo || r.1 > hi then none else some r
  else none

/-- Modelled from the C library: the `struct tm` left by
`strptime(s, "%Y-%m-%d", &tm)` in a zero-initialised `tm`. A field is stored as
soon as it is converted; when the input stops matching, the later fields keep
their zero. -/
def strptime (s : List Nat) : Tm :=
  match getNumber 0 9999 4 s with
  | none => ⟨0, 0, 0⟩
  | some (y, r1) =>
    if r1.head? == some 45 then
      match getNumber 1 12 2 r1.tail with
      | none => ⟨(y : Int) - 1900, 0, 0⟩
      | some (m, r2) =>
        if r2.head? == some 45 then
          match getNumber 1 31 2 r2.tail with
          | none => ⟨(y : Int) - 1900, (m : Int) - 1, 0⟩
          | some (d, _) => ⟨(y : Int) - 1900, (m : Int) - 1, (d : Int)⟩
        else ⟨(y : Int) - 1900, (m : Int) - 1, 0⟩
    else ⟨(y : Int) - 1900, 0, 0⟩

/-- Days from 1970-01-01 to the civil date `y-m-d` of the proleptic Gregorian
calendar, for a month `m` in `1..12`. -/
def daysFromCivil (y m d : Int) : Int :=
  let y1 := if m ≤ 2 then y - 1 else y
  let era := y1 / 400
  let yoe := y1 - era * 400
  let mp := if m > 2 then m - 3 else m + 9
  let doy := (153 * mp + 2) / 5 + d - 1
  let doe := yoe * 365 + yoe / 4 - yoe / 100 + doy
  era * 146097 + doe - 719468

/-- Modelled from the C library: `mktime` in a time zone without clock changes.
The source's `mktime` reads the fields as local time; where the local clock
changes between the two dates, the day difference of the source can be one less
than here. The day of the month is normalised (day 0 is the last day of the
month before); the month is in `0..11` whenever `strptime` stored it. -/
def mktime (tm : Tm) : Int :=
  (daysFromCivil (tm.tm_year + 1900) (tm.tm_mon + 1) 1 + (tm.tm_mday - 1)) * 86400

/-- Method `calculateDaysDifference`; the quotient of C++ truncates, hence
`Int.tdiv`. -/
def calculateDaysDifference (date1 date2 : List Nat) : Int :=
  Int.tdiv (mktime (strptime date2) - mktime (strptime date1)) (60 * 60 * 24)

/-! ## Reads of the mapped file -/

/-- Result of code that reads `mapped_file`: a value, or the first read that left
the buffer (`count` bytes at `offset`), where the source has undefined
behaviour. -/
inductive Outcome (α : Type) where
  | ok (a : α)
  | fault (offset : Int) (count : Nat)
deriving DecidableEq, Repr

/-- Sequencing: a fault ends the computation. -/
def Outcome.bind {α β : Type} (x : Outcome α) (f : α → Outcome β) : Outcome β :=
  match x with
  | .ok a => f a
  | .fault o c => .fault o c

instance : Monad Outcome where
  pure := Outcome.ok
  bind := Outcome.bind

/-- The expression `mapped_file[off]`. -/
def readByte (buf : List Nat) (off : Int) : Outcome Nat :=
  if 0 ≤ off ∧ off < buf.length then .ok (buf.getD off.toNat 0) else .fault off 1

/-- The expression `std::string(mapped_file + off, n)`. -/
def readBytes (buf : List Nat) (off : Int) (n : Nat) : Outcome (List Nat) :=
  if 0 ≤ off ∧ off + n ≤ buf.length then .ok ((buf.drop off.toNat).take n) else .fault off n

/-- Conversion of an `off_t` to `size_t`, made by C++ where the two are compared or
added: a negative offset becomes a huge unsigned number. -/
def toSize (x : Int) : Int := if x < 0 then x + 18446744073709551616 else x

/-! ## Line boundaries -/

/-- The loop `while (pos > start && mapped_file[pos - 1] != '\n') pos--;` of
`findLineStart`. -/
def lineStartLoop (buf : List Nat) (start : Int) : Nat → Int → Outcome Int
  | 0, pos => .ok pos
  | fuel + 1, pos =>
    if pos > start then
      (readByte buf (pos - 1)).bind fun c =>
        if c != 10 then lineStartLoop buf start fuel (pos - 1) else .ok pos
    else .ok pos

/-- Method `findLineStart`. The loop makes at most `pos - start` steps. -/
def findLineStart (buf : List Nat) (pos : Int) : Outcome Int :=
  if pos ≤ 0 then .ok 0
  else if toSize pos ≥ buf.length then .ok (-1)
  else
    let start := max 0 (pos - 1000)
    lineStartLoop buf start (pos - start).toNat pos

/-- The loop `while (pos < end && mapped_file[pos] != '\n') pos++;` of
`findNextLine`; `stop` is the local `end`, an `off_t` like `pos`, so the test
`pos < end` compares signed numbers. -/
def nextLineLoop (buf : List Nat) (stop : Int) : Nat → Int → Outcome Int
  | 0, pos => .ok pos
  | fuel + 1, pos =>
    if pos < stop then
      (readByte buf pos).bind fun c =>
        if c != 10 then nextLineLoop buf stop fuel (pos + 1) else .ok pos
    else .ok pos

/-- Method `findNextLine`. The local `end` is the `size_t` minimum of `file_size`
and the converted `pos + max_forward`, stored in an `off_t`; the final test
`pos < file_size` compares with a `size_t`. The loop makes at most `end - pos`
steps. -/
def findNextLine (buf : List Nat) (pos : Int) : Outcome Int :=
  let stop : Int := min (buf.length : Int) (toSize (pos + 1000))
  (nextLineLoop buf stop (stop - pos).toNat pos).bind fun p =>
    .ok (if toSize p < buf.length then p + 1 else buf.length)

/-! ## Position estimate -/

/-- The loop of `estimatePosition` from offset `pos` on. The first digit byte whose
ten bytes form a date accepted by `validateDate` ends the scan; `-1` when the
scan reaches `min(1000, file_size)`. The day difference of two accepted dates
is far inside the range of `int`, so the cast of the source is not modelled. -/
def estimateLoop (buf target : List Nat) (bytes_per_day : Int) : Nat → Int → Outcome Int
  | 0, _ => .ok (-1)
  | fuel + 1, pos =>
    if toSize pos < min (1000 : Int) (buf.length : Int) then
      (readByte buf pos).bind fun c =>
        if isdigit c then
          (readBytes buf pos DATE_LENGTH).bind fun first_date =>
            if validateDate first_date then
              let days_diff := calculateDaysDifference first_date target
              if days_diff < 0 then .ok 0
              else .ok (min (days_diff * bytes_per_day) ((buf.length : Int) - 1))
            else estimateLoop buf target bytes_per_day fuel (pos + 1)
        else estimateLoop buf target bytes_per_day fuel (pos + 1)
    else .ok (-1)

/-- Method `estimatePosition`. The scan starts at 0 and makes at most
`min(1000, file_size)` steps. -/
def estimatePosition (buf target : List Nat) (bytes_per_day : Int) : Outcome Int :=
  estimateLoop buf target bytes_per_day (min 1000 buf.length) 0

/-! ## Binary search -/

/-- What one iteration of the loop of `binarySearch` does: it returns, or it goes
on with a new window. -/
inductive Step where
  | done (result : Int)
  | next (left right : Int)
deriving DecidableEq, Repr

/-- Body of the `while` loop of `binarySearch` for a window with `left <= right`. -/
def binarySearchStep (buf target : List Nat) (find_start : Bool) (left right : Int) :
    Outcome Step :=
  let mid := left + Int.tdiv (right - left) 2
  (findLineStart buf mid).bind fun line_start =>
    if line_start == -1 then .ok (.done (-1))
    else if toSize line_start + DATE_LENGTH > buf.length then .ok (.next left (mid - 1))
    else
      (readBytes buf line_start DATE_LENGTH).bind fun current_date =>
        if find_start then
          if strLess current_date target then .ok (.next (mid + 1) right)
          else if strLess target current_date then .ok (.next left (mid - 1))
          else if line_start == 0 then .ok (.done line_start)
          else
            (readBytes buf (line_start - DATE_LENGTH - 1) DATE_LENGTH).bind fun previous =>
              if previous != target then .ok (.done line_start)
              else .ok (.next left (mid - 1))
        else
          if strLess current_date target then .ok (.next (mid + 1) right)
          else if strLess target current_date then .ok (.next left (mid - 1))
          else
            (findNextLine buf line_start).bind fun next_line =>
              if toSize next_line ≥ buf.length then .ok (.done next_line)
              else
                (readBytes buf next_line DATE_LENGTH).bind fun following =>
                  if following != target then .ok (.done next_line)
                  else .ok (.next (mid + 1) right)

/-- The `while (left <= right)` loop of `binarySearch`, with a counter of the
iterations still allowed. -/
def binarySearchLoop (buf target : List Nat) (find_start : Bool) :
    Nat → Int → Int → Outcome Int
  | 0, _, _ => .ok (-1)
  | fuel + 1, left, right =>
    if left ≤ right then
      (binarySearchStep buf target find_start left right).bind fun st =>
        match st with
        | .done r => .ok r
        | .next l r => binarySearchLoop buf target find_start fuel l r
    else .ok (-1)

/-- Method `binarySearch`. Every iteration that does not return shrinks the window,
so `right - left + 1` iterations are enough (`binarySearchLoop_fuel`). -/
def binarySearch (buf target : List Nat) (left right : Int) (find_start : Bool) :
    Outcome Int :=
  binarySearchLoop buf target find_start (right - left + 1).toNat left right

/-! ## The driver -/

/-- The search window `[left, right]` that `findDateBoundaries` derives from the
estimate. -/
def searchWindow (file_size : Nat) (estimated_pos : Int) : Int × Int :=
  let bytes_per_day : Int := ((file_size / 365 : Nat) : Int)
  if estimated_pos != -1 then
    (max 0 (estimated_pos - bytes_per_day * 2),
     min ((file_size : Int) - 1) (estimated_pos + bytes_per_day * 2))
  else (0, (file_size : Int) - 1)

/-- Method `findDateBoundaries` for a non-empty file; the pair is `(start, end)`. -/
def findDateBoundaries (buf target : List Nat) : Outcome (Int × Int) :=
  let bytes_per_day : Int := ((buf.length / 365 : Nat) : Int)
  (estimatePosition buf target bytes_per_day).bind fun estimated_pos =>
    let w := searchWindow buf.length estimated_pos
    (binarySearch buf target w.1 w.2 true).bind fun start =>
      if start != -1 then
        (binarySearch buf target start w.2 false).bind fun stop => .ok (start, stop)
      else .ok (start, -1)

/-- How a call of `extractLogs` on an opened and mapped file ends. -/
inductive Extraction where
  | invalidDate
  | emptyFile
  | noLogs
  | written (chunks : List (List Nat))
deriving DecidableEq, Repr

/-- The copy loop of `extractLogs`: the chunks written from `pos` up to `end_pos`. -/
def copyLoop (buf : List Nat) (end_pos : Nat) : Nat → Nat → List (List Nat)
  | 0, _ => []
  | fuel + 1, pos =>
    if pos < end_pos then
      let chunk_size := min BUFFER_SIZE (end_pos - pos)
      ((buf.drop pos).take chunk_size) :: copyLoop buf end_pos fuel (pos + chunk_size)
    else []

/-- Method `extractLogs` once the input file is opened and the output file created:
`buf` is the content of the input file. -/
def extractLogs (buf target_date : List Nat) : Outcome Extraction :=
  if !validateDate target_date then .ok .invalidDate
  else if buf.length == 0 then .ok .emptyFile
  else
    (findDateBoundaries buf target_date).bind fun r =>
      if r.1 == -1 || r.2 == -1 then .ok .noLogs
      else .ok (.written (copyLoop buf r.2.toNat (r.2 - r.1).toNat r.1.toNat))

/-! ## Vocabulary of the specification -/

/-- A string of the shape `DDDD-DD-DD`, `D` a decimal digit. -/
def isDateShape (s : List Nat) : Bool :=
  match s with
  | [a, b, c, d, e, f, g, h, i, j] =>
    isdigit a && isdigit b && isdigit c && isdigit d && e == 45 &&
    isdigit f && isdigit g && h == 45 && isdigit i && isdigit j
  | _ => false

/-- The year written in the first four characters of a string of date shape. -/
def yearOf (s : List Nat) : Nat :=
  (s.getD 0 0 - 48) * 1000 + (s.getD 1 0 - 48) * 100 + (s.getD 2 0 - 48) * 10 + (s.getD 3 0 - 48)

/-- The month written in characters 5 and 6 of a string of date shape. -/
def monthOf (s : List Nat) : Nat := (s.getD 5 0 - 48) * 10 + (s.getD 6 0 - 48)

/-- The day written in characters 8 and 9 of a string of date shape. -/
def dayOf (s : List Nat) : Nat := (s.getD 8 0 - 48) * 10 + (s.getD 9 0 - 48)

/-- The leap-year rule in the words of the specification:
`year % 4 == 0 && (year % 100 != 0 || year % 400 == 0)`. -/
def gregorianLeap (y : Nat) : Bool := y % 4 == 0 && (y % 100 != 0 || y % 400 == 0)

/-- The Gregorian day count of month `m` of year `y`, in the words of the
specification: 28/29/30/31, February having 29 days exactly in a leap year. -/
def gregorianDays (y m : Nat) : Nat :=
  if m = 2 then (if gregorianLeap y then 29 else 28)
  else if m = 4 ∨ m = 6 ∨ m = 9 ∨ m = 11 then 30
  else 31

/-- The reference calendar of the specification for a string of date shape. -/
def calendarValid (s : List Nat) : Prop :=
  1900 ≤ yearOf s ∧ yearOf s ≤ 2100 ∧ 1 ≤ monthOf s ∧ monthOf s ≤ 12 ∧
    1 ≤ dayOf s ∧ dayOf s ≤ gregorianDays (yearOf s) (monthOf s)

/-- One record of a log: the ten bytes of its date, and the rest of its line
without the final newline. -/
structure Record where
  date : List Nat
  text : List Nat
deriving DecidableEq, Repr

/-- The line of a record in the file: date, text, newline. -/
def Record.line (r : Record) : List Nat := r.date ++ r.text ++ [10]

/-- The file made of the lines of the records, in order. -/
def render : List Record → List Nat
  | [] => []
  | r :: rs => r.line ++ render rs

/-- A well-formed record: its date is a zero-padded `YYYY-MM-DD` date (of date
shape, and a date that `validateDate` accepts), its text holds no newline, and
its line, newline included, is at most 1000 bytes long. -/
def Record.wellFormed (r : Record) : Prop :=
  isDateShape r.date = true ∧ validateDate r.date = true ∧ (∀ c ∈ r.text, c ≠ 10) ∧
    r.line.length ≤ 1000

/-- A well-formed sorted log: every record is well formed and the dates never
decrease from one record to a later one. -/
def WellFormedLog (rs : List Record) : Prop :=
  (∀ r ∈ rs, r.wellFormed) ∧ rs.Pairwise (fun a b => strLess b.date a.date = false)

instance (r : Record) : Decidable r.wellFormed := by
  unfold Record.wellFormed; infer_instance

instance (rs : List Record) : Decidable (WellFormedLog rs) := by
  unfold WellFormedLog; infer_instance

/-- The byte at offset `i` of the buffer (0 outside of it). -/
def byteAt (buf : List Nat) (i : Int) : Nat := buf.getD i.toNat 0

/-- The record `r` starts at offset `s` of the rendered file: it is well formed and
lies inside the file, its date is read at `s`, a newline stands just before `s`
(unless `s` is 0) and at the end of its line, and nowhere else in the line. -/
structure RecordAt (rs : List Record) (s : Nat) (r : Record) : Prop where
  wf : r.wellFormed
  fits : s + r.line.length ≤ (render rs).length
  date_eq : ((render rs).drop s).take 10 = r.date
  before : 0 < s → (render rs).getD (s - 1) 0 = 10
  inside : ∀ j : Nat, s ≤ j → j + 1 < s + r.line.length → (render rs).getD j 0 ≠ 10
  last : (render rs).getD (s + r.line.length - 1) 0 = 10

/-! ## Inputs used below -/

/-- The scenario of the specification: three records, two of 2024-01-01 and one
of 2024-01-02. -/
def scenarioLog : List Record :=
  [⟨ascii "2024-01-01", ascii " a"⟩, ⟨ascii "2024-01-01", ascii " b"⟩,
   ⟨ascii "2024-01-02", ascii " c"⟩]

/-- The 39-byte buffer of the scenario of the specification. -/
def scenarioBuffer : List Nat := ascii "2024-01-01 a\n2024-01-01 b\n2024-01-02 c\n"

/-- A sorted log of 31 records of 12 bytes (372 bytes): one of 2024-01-01, two of
2024-01-25, then 28 of 2024-01-26. -/
def fragileLog : List Record :=
  [⟨ascii "2024-01-01", ascii "x"⟩, ⟨ascii "2024-01-25", ascii "x"⟩,
   ⟨ascii "2024-01-25", ascii "x"⟩] ++ List.replicate 28 ⟨ascii "2024-01-26", ascii "x"⟩

/-- A sorted log of two records, one per day. -/
def twoDayLog : List Record :=
  [⟨ascii "2024-01-01", ascii " a"⟩, ⟨ascii "2024-01-02", ascii " b"⟩]

/-- A sorted log of two records of the same day. -/
def sameDayLog : List Record :=
  [⟨ascii "2024-01-01", ascii " a"⟩, ⟨ascii "2024-01-01", ascii " b"⟩]

/-- A file of 734 bytes whose first line is the single byte `x`, followed by 61
records of 2024-01-01. -/
def shortFirstLine : List Nat :=
  ascii "x\n" ++ (List.replicate 61 (ascii "2024-01-01x\n")).flatten

/-- A file of 1002 bytes `a` without any newline. -/
def longLine : List Nat := List.replicate 1002 97

/-! ## Streaming with progress and with a failing sink -/

/-- The copy loop of `extractLogs` with its counter `bytes_written`: every element
is a chunk handed to `output_file.write` together with the number passed to
`progress.update` right after it. -/
def copyLoopProgress (buf : List Nat) (end_pos : Nat) : Nat → Nat → Nat → List (List Nat × Nat)
  | 0, _, _ => []
  | fuel + 1, pos, bytes_written =>
    if pos < end_pos then
      let chunk_size := min BUFFER_SIZE (end_pos - pos)
      ((buf.drop pos).take chunk_size, bytes_written + chunk_size) ::
        copyLoopProgress buf end_pos fuel (pos + chunk_size) (bytes_written + chunk_size)
    else []

/-- Modelled from the C++ library: what is observable of the `std::ofstream`, the
chunks it accepted and its error state. -/
structure Sink where
  written : List (List Nat)
  bad : Bool
deriving DecidableEq, Repr

/-- Modelled from the C++ library: `output_file.write(buffer, chunk_size)`. A
stream in error state ignores the call; `fails` says whether this call hits an
output error, which puts the stream in error state. -/
def Sink.write (s : Sink) (fails : Bool) (chunk : List Nat) : Sink :=
  if s.bad then s
  else if fails then { s with bad := true }
  else { s with written := s.written ++ [chunk] }

/-- The copy loop of `extractLogs` on a sink whose `k`-th call of `write` hits an
error when `fails k`; the result is the final sink and the number of calls of
`write`. The source does not test the stream inside or after the loop. -/
def copyLoopSink (buf : List Nat) (end_pos : Nat) (fails : Nat → Bool) :
    Nat → Nat → Nat → Sink → Sink × Nat
  | 0, _, calls, sink => (sink, calls)
  | fuel + 1, pos, calls, sink =>
    if pos < end_pos then
      let chunk_size := min BUFFER_SIZE (end_pos - pos)
      copyLoopSink buf end_pos fails fuel (pos + chunk_size) (calls + 1)
        (sink.write (fails calls) ((buf.drop pos).take chunk_size))
    else (sink, calls)

/-- Method `extractLogs` as in `extractLogs` above, on a sink that can fail: the
value returned to `main`, the final sink and the number of calls of `write`. -/
def extractLogsTo (fails : Nat → Bool) (buf target_date : List Nat) :
    Outcome (Bool × Sink × Nat) :=
  if !validateDate target_date then .ok (false, ⟨[], false⟩, 0)
  else if buf.length == 0 then .ok (false, ⟨[], false⟩, 0)
  else
    (findDateBoundaries buf target_date).bind fun r =>
      if r.1 == -1 || r.2 == -1 then .ok (false, ⟨[], false⟩, 0)
      else
        let out := copyLoopSink buf r.2.toNat fails (r.2 - r.1).toNat r.1.toNat 0 ⟨[], false⟩
        .ok (true, out.1, out.2)

/-- The exit code of `main`: `extractLogs(...) ? 0 : 1`. -/
def exitCode (ok : Bool) : Nat := if ok then 0 else 1

/-! ## More vocabulary of the specification -/

/-- The running totals of a list of chunk sizes, starting from `acc`. -/
def runningTotals : Nat → List Nat → List Nat
  | _, [] => []
  | acc, n :: ns => (acc + n) :: runningTotals (acc + n) ns

/-- The `(year, month, day)` triple of a string of date shape. -/
def dateTriple (s : List Nat) : Nat × Nat × Nat := (yearOf s, monthOf s, dayOf s)

/-- The order of `(year, month, day)` triples: by year, then month, then day. -/
def tripleLess (p q : Nat × Nat × Nat) : Prop :=
  p.1 < q.1 ∨ (p.1 = q.1 ∧ (p.2.1 < q.2.1 ∨ (p.2.1 = q.2.1 ∧ p.2.2 < q.2.2)))

/-- No line of the buffer, its newline included, is longer than 1000 bytes: 1000
bytes in a row that are followed by a further byte always hold a newline. -/
def LinesBounded (buf : List Nat) : Prop :=
  ∀ i : Nat, i + 1000 < buf.length → ∃ j : Nat, i ≤ j ∧ j < i + 1000 ∧ buf.getD j 0 = 10

/-- A file whose only date, 2023-13-45, is not a date of the calendar. -/
def garbledDateLog : List Nat := ascii "2023-13-45 boot\n"

/-- A file of one record. -/
def oneRecordLog : List Nat := ascii "2024-01-01 a\n"

/-- A sorted log of 100 records of 12 bytes (1200 bytes): 2024-01-01, 2024-01-05,
2024-01-09, then 97 of 2024-01-10. -/
def alignedLog : List Record :=
  [⟨ascii "2024-01-01", ascii "x"⟩, ⟨ascii "2024-01-05", ascii "x"⟩,
   ⟨ascii "2024-01-09", ascii "x"⟩] ++ List.replicate 97 ⟨ascii "2024-01-10", ascii "x"⟩

/-! # Properties -/

set_option maxRecDepth 100000

/-! ## Reads and line boundaries -/

theorem toSize_of_nonneg (x : Int) (h : 0 ≤ x) : toSize x = x := by
  simp [toSize]; omega

theorem readByte_ok (buf : List Nat) (i : Int) (h0 : 0 ≤ i) (h1 : i < buf.length) :
    readByte buf i = .ok (byteAt buf i) := by
  simp [readByte, byteAt, h0, h1]

theorem readBytes_ok (buf : List Nat) (i : Int) (n : Nat) (h0 : 0 ≤ i)
    (h1 : i + n ≤ buf.length) :
    readBytes buf i n = .ok ((buf.drop i.toNat).take n) := by
  simp [readBytes, h0, h1]

theorem lineStartLoop_spec (buf : List Nat) (start : Int) (hs : 0 ≤ start) :
    ∀ (fuel : Nat) (pos : Int), start ≤ pos → pos ≤ buf.length → pos - start ≤ fuel →
      ∃ r, lineStartLoop buf start fuel pos = .ok r ∧ start ≤ r ∧ r ≤ pos ∧
        (r = start ∨ byteAt buf (r - 1) = 10) ∧
        ∀ j, r < j → j ≤ pos → byteAt buf (j - 1) ≠ 10 := by
  intro fuel
  induction fuel with
  | zero =>
    intro pos h1 _ h3
    have : pos = start := by omega
    subst this
    exact ⟨pos, rfl, le_refl _, le_refl _, Or.inl rfl, fun j hj hj' => by omega⟩
  | succ n ih =>
    intro pos h1 h2 h3
    by_cases hp : pos > start
    · have hrd := readByte_ok buf (pos - 1) (by omega) (by omega)
      by_cases hc : byteAt buf (pos - 1) = 10
      · refine ⟨pos, ?_, h1, le_refl _, Or.inr hc, fun j hj hj' => by omega⟩
        simp [lineStartLoop, hp, hrd, Outcome.bind, hc]
      · obtain ⟨r, hr, hr1, hr2, hr3, hr4⟩ := ih (pos - 1) (by omega) (by omega) (by omega)
        refine ⟨r, ?_, hr1, by omega, hr3, ?_⟩
        · simp [lineStartLoop, hp, hrd, Outcome.bind, hc, hr]
        · intro j hj hj'
          by_cases hjp : j = pos
          · subst hjp; exact hc
          · exact hr4 j hj (by omega)
    · have : pos = start := by omega
      subst this
      refine ⟨pos, ?_, le_refl _, le_refl _, Or.inl rfl, fun j hj hj' => by omega⟩
      simp [lineStartLoop]

theorem findLineStart_cases (buf : List Nat) (pos : Int) :
    (pos ≤ 0 → findLineStart buf pos = .ok 0) ∧
    (0 < pos → (buf.length : Int) ≤ pos → findLineStart buf pos = .ok (-1)) ∧
    (0 < pos → pos < buf.length →
      ∃ r, findLineStart buf pos = .ok r ∧ max 0 (pos - 1000) ≤ r ∧ r ≤ pos ∧
        (r = max 0 (pos - 1000) ∨ byteAt buf (r - 1) = 10) ∧
        ∀ r', max 0 (pos - 1000) ≤ r' → r' ≤ pos →
          (r' = max 0 (pos - 1000) ∨ byteAt buf (r' - 1) = 10) → r' ≤ r) := by
  refine ⟨?_, ?_, ?_⟩
  · intro h
    simp [findLineStart, h]
  · intro h0 h1
    have : ¬ pos ≤ 0 := by omega
    simp [findLineStart, this, toSize_of_nonneg pos (by omega), h1]
  · intro h0 h1
    have hn : ¬ pos ≤ 0 := by omega
    have hlt : ¬ ((buf.length : Int) ≤ pos) := by omega
    obtain ⟨r, hr, hr1, hr2, hr3, hr4⟩ :=
      lineStartLoop_spec buf (max 0 (pos - 1000)) (le_max_left _ _)
        (pos - max 0 (pos - 1000)).toNat pos (by omega) (by omega) (by omega)
    refine ⟨r, ?_, hr1, hr2, hr3, ?_⟩
    · simp [findLineStart, hn, toSize_of_nonneg pos (by omega), hlt, hr]
    · intro r' h1' h2' h3'
      by_contra hcon
      have hgt : r < r' := by omega
      rcases h3' with h | h
      · omega
      · exact hr4 r' hgt h2' h

theorem nextLineLoop_spec (buf : List Nat) (stop : Int) (hstop : stop ≤ buf.length) :
    ∀ (fuel : Nat) (pos : Int), 0 ≤ pos → pos ≤ stop → stop - pos ≤ fuel →
      ∃ p, nextLineLoop buf stop fuel pos = .ok p ∧ pos ≤ p ∧ p ≤ stop ∧
        (p = stop ∨ byteAt buf p = 10) ∧
        ∀ j, pos ≤ j → j < p → byteAt buf j ≠ 10 := by
  intro fuel
  induction fuel with
  | zero =>
    intro pos _ h2 h3
    have : pos = stop := by omega
    subst this
    exact ⟨pos, rfl, le_refl _, le_refl _, Or.inl rfl, fun j hj hj' => by omega⟩
  | succ n ih =>
    intro pos h1 h2 h3
    by_cases hp : pos < stop
    · have hrd := readByte_ok buf pos h1 (by omega)
      by_cases hc : byteAt buf pos = 10
      · refine ⟨pos, ?_, le_refl _, h2, Or.inr hc, fun j hj hj' => by omega⟩
        simp [nextLineLoop, hp, hrd, Outcome.bind, hc]
      · obtain ⟨p, hr, hr1, hr2, hr3, hr4⟩ := ih (pos + 1) (by omega) (by omega) (by omega)
        refine ⟨p, ?_, by omega, hr2, hr3, ?_⟩
        · simp [nextLineLoop, hp, hrd, Outcome.bind, hc, hr]
        · intro j hj hj'
          by_cases hjp : j = pos
          · subst hjp; exact hc
          · exact hr4 j (by omega) hj'
    · have : pos = stop := by omega
      subst this
      refine ⟨pos, ?_, le_refl _, le_refl _, Or.inl rfl, fun j hj hj' => by omega⟩
      simp [nextLineLoop]

theorem findNextLine_of_newline (buf : List Nat) (pos i : Int) (h0 : 0 ≤ pos) (hi1 : pos ≤ i)
    (hi2 : i < buf.length) (hi3 : i < pos + 1000) (hnl : byteAt buf i = 10)
    (hfirst : ∀ j, pos ≤ j → j < i → byteAt buf j ≠ 10) :
    findNextLine buf pos = .ok (i + 1) := by
  obtain ⟨p, hp, hp1, hp2, hp3, hp4⟩ :=
    nextLineLoop_spec buf (min (buf.length : Int) (pos + 1000)) (min_le_left _ _)
      (min (buf.length : Int) (pos + 1000) - pos).toNat pos h0 (by omega) (by omega)
  have hpi : p = i := by
    by_contra hne
    rcases lt_or_gt_of_ne hne with h | h
    · rcases hp3 with h' | h'
      · omega
      · exact hfirst p hp1 h h'
    · exact hp4 i hi1 h hnl
  subst hpi
  simp [findNextLine, toSize_of_nonneg (pos + 1000) (by omega), hp, Outcome.bind,
    toSize_of_nonneg p (by omega), hi2]

theorem findNextLine_cap (buf : List Nat) (pos : Int) (h0 : 0 ≤ pos)
    (hlen : pos + 1000 < buf.length)
    (hno : ∀ j, pos ≤ j → j < pos + 1000 → byteAt buf j ≠ 10) :
    findNextLine buf pos = .ok (pos + 1001) := by
  have hmin : min (buf.length : Int) (pos + 1000) = pos + 1000 := by omega
  obtain ⟨p, hp, hp1, hp2, hp3, hp4⟩ :=
    nextLineLoop_spec buf (pos + 1000) (by omega) (pos + 1000 - pos).toNat pos h0
      (by omega) (by omega)
  have hpi : p = pos + 1000 := by
    by_contra hne
    rcases hp3 with h | h
    · exact hne h
    · exact hno p hp1 (by omega) h
  subst hpi
  have hlt : pos + 1000 < (buf.length : Int) := hlen
  simp only [findNextLine, toSize_of_nonneg (pos + 1000) (by omega), hmin, hp, Outcome.bind,
    hlt, if_true]
  congr 1
  omega

theorem findNextLine_eof (buf : List Nat) (pos : Int) (h0 : 0 ≤ pos)
    (hlen : (buf.length : Int) ≤ pos + 1000)
    (hno : ∀ j, pos ≤ j → j < buf.length → byteAt buf j ≠ 10) :
    findNextLine buf pos = .ok (buf.length : Int) := by
  have hmin : min (buf.length : Int) (pos + 1000) = buf.length := by omega
  by_cases hpl : pos ≤ buf.length
  · obtain ⟨p, hp, hp1, hp2, hp3, hp4⟩ :=
      nextLineLoop_spec buf (buf.length : Int) (le_refl _)
        ((buf.length : Int) - pos).toNat pos h0 (by omega) (by omega)
    have hpi : p = buf.length := by
      by_contra hne
      rcases hp3 with h | h
      · exact hne h
      · exact hno p hp1 (by omega) h
    subst hpi
    simp only [findNextLine, toSize_of_nonneg (pos + 1000) (by omega), hmin, hp, Outcome.bind,
      toSize_of_nonneg (buf.length : Int) (by omega), lt_irrefl, if_false]
  · have hz : ((buf.length : Int) - pos).toNat = 0 := by omega
    have hlt : ¬ (pos < buf.length) := by omega
    simp only [findNextLine, toSize_of_nonneg (pos + 1000) (by omega), hmin, hz, nextLineLoop,
      Outcome.bind, toSize_of_nonneg pos h0, hlt, if_false]

/-- Claim C10: `findLineStart` returns 0 for `pos <= 0`, the sentinel -1 for
`pos > 0` with `pos >= len`, and otherwise the largest offset `r` in
`[max(0, pos-1000), pos]` that is the capped start `max(0, pos-1000)` or has a
newline just before it; no read leaves the buffer. -/
theorem findLineStart_spec (buf : List Nat) (pos : Int) :
    (pos ≤ 0 → findLineStart buf pos = .ok 0) ∧
    (0 < pos → (buf.length : Int) ≤ pos → findLineStart buf pos = .ok (-1)) ∧
    (0 < pos → pos < buf.length →
      ∃ r, findLineStart buf pos = .ok r ∧ max 0 (pos - 1000) ≤ r ∧ r ≤ pos ∧
        (r = max 0 (pos - 1000) ∨ byteAt buf (r - 1) = 10) ∧
        ∀ r', max 0 (pos - 1000) ≤ r' → r' ≤ pos →
          (r' = max 0 (pos - 1000) ∨ byteAt buf (r' - 1) = 10) → r' ≤ r) :=
  findLineStart_cases buf pos

theorem findLineStart_spec_witness :
    (0 : Int) < 4 ∧ (4 : Int) < ((ascii "ab\ncd\n").length : Int) ∧
      ∃ r, findLineStart (ascii "ab\ncd\n") 4 = .ok r ∧ max 0 ((4 : Int) - 1000) ≤ r ∧ r ≤ 4 ∧
        (r = max 0 ((4 : Int) - 1000) ∨ byteAt (ascii "ab\ncd\n") (r - 1) = 10) ∧
        ∀ r', max 0 ((4 : Int) - 1000) ≤ r' → r' ≤ 4 →
          (r' = max 0 ((4 : Int) - 1000) ∨ byteAt (ascii "ab\ncd\n") (r' - 1) = 10) → r' ≤ r :=
  ⟨by decide, by decide, (findLineStart_spec (ascii "ab\ncd\n") 4).2.2 (by decide) (by decide)⟩

/-! ### The counter of the binary search is never exhausted -/

theorem mid_bounds (left right : Int) (h : left ≤ right) :
    left ≤ left + Int.tdiv (right - left) 2 ∧ left + Int.tdiv (right - left) 2 ≤ right := by
  rw [Int.tdiv_eq_ediv (by omega) (by omega)]
  omega

theorem binarySearchStep_next (buf target : List Nat) (find_start : Bool) (left right l r : Int)
    (h : binarySearchStep buf target find_start left right = .ok (.next l r)) :
    (l = left ∧ r = left + Int.tdiv (right - left) 2 - 1) ∨
      (l = left + Int.tdiv (right - left) 2 + 1 ∧ r = right) := by
  simp only [binarySearchStep, Outcome.bind] at h
  repeat' split at h
  all_goals first
    | (simp at h; done)
    | (simp only [Outcome.ok.injEq, Step.next.injEq] at h; omega)

theorem binarySearchLoop_fuel (buf target : List Nat) (find_start : Bool) :
    ∀ (n m : Nat) (left right : Int), (right - left + 1).toNat ≤ n →
      (right - left + 1).toNat ≤ m →
      binarySearchLoop buf target find_start n left right =
        binarySearchLoop buf target find_start m left right := by
  intro n
  induction n with
  | zero =>
    intro m left right h1 _
    have hlr : ¬ left ≤ right := by omega
    cases m with
    | zero => rfl
    | succ m => simp [binarySearchLoop, hlr]
  | succ n ih =>
    intro m left right h1 h2
    by_cases hlr : left ≤ right
    · cases m with
      | zero => omega
      | succ m =>
        simp only [binarySearchLoop, hlr, if_true]
        cases hst : binarySearchStep buf target find_start left right with
        | fault o c => rfl
        | ok st =>
          cases st with
          | done v => rfl
          | next l r =>
            simp only [Outcome.bind]
            have hb := mid_bounds left right hlr
            rcases binarySearchStep_next buf target find_start left right l r hst with
              ⟨rfl, rfl⟩ | ⟨rfl, rfl⟩
            · exact ih m _ _ (by omega) (by omega)
            · exact ih m _ _ (by omega) (by omega)
    · cases m with
      | zero => simp [binarySearchLoop, hlr]
      | succ m => simp [binarySearchLoop, hlr]

/-! ## Date validation -/

theorem isdigit_iff (c : Nat) : isdigit c = true ↔ 48 ≤ c ∧ c ≤ 57 := by
  simp [isdigit]

theorem isDateShape_cases (s : List Nat) (h : isDateShape s = true) :
    ∃ a b c d f g i j, s = [a, b, c, d, 45, f, g, 45, i, j] ∧
      isdigit a = true ∧ isdigit b = true ∧ isdigit c = true ∧ isdigit d = true ∧
      isdigit f = true ∧ isdigit g = true ∧ isdigit i = true ∧ isdigit j = true := by
  rcases s with _ | ⟨a, _ | ⟨b, _ | ⟨c, _ | ⟨d, _ | ⟨e, _ | ⟨f, _ | ⟨g, _ | ⟨h', _ | ⟨i, _ | ⟨j, _ | ⟨k, t⟩⟩⟩⟩⟩⟩⟩⟩⟩⟩⟩ <;>
    simp [isDateShape] at h
  obtain ⟨⟨⟨⟨⟨⟨⟨⟨⟨ha, hb⟩, hc⟩, hd⟩, he⟩, hf⟩, hg⟩, hh⟩, hi⟩, hj⟩ := h
  subst he hh
  exact ⟨a, b, c, d, f, g, i, j, rfl, ha, hb, hc, hd, hf, hg, hi, hj⟩

theorem stoi_digits (ds : List Nat) (hne : ds ≠ []) (hd : ∀ d ∈ ds, isdigit d = true)
    (hv : digitsValue ds ≤ 2147483647) : stoi ds = some (digitsValue ds : Int) := by
  obtain ⟨a, t, rfl⟩ := List.exists_cons_of_ne_nil hne
  have ha := (isdigit_iff a).1 (hd a (by simp))
  have hsp : isspace a = false := by
    simp [isspace]; omega
  have h1 : List.dropWhile isspace (a :: t) = a :: t := by
    rw [List.dropWhile_cons_of_neg]; simp [hsp]
  have h2 : List.takeWhile isdigit (a :: t) = a :: t :=
    List.takeWhile_eq_self_iff.2 hd
  have h45 : a ≠ 45 := by omega
  have h43 : a ≠ 43 := by omega
  unfold stoi
  simp only [h1, List.head?_cons]
  simp [h45, h43, h2]
  omega

theorem validateDateComponents_iff (y m d : Nat) :
    validateDateComponents ⟨(y : Int), (m : Int), (d : Int)⟩ = true ↔
      1900 ≤ y ∧ y ≤ 2100 ∧ 1 ≤ m ∧ m ≤ 12 ∧ 1 ≤ d ∧ d ≤ gregorianDays y m := by
  unfold validateDateComponents
  by_cases hy : 1900 ≤ y ∧ y ≤ 2100
  · by_cases hm : 1 ≤ m ∧ m ≤ 12
    · obtain ⟨hm1, hm2⟩ := hm
      have e4 : Int.tmod (y : Int) 4 = ((y % 4 : Nat) : Int) := (Int.ofNat_tmod y 4).symm
      have e100 : Int.tmod (y : Int) 100 = ((y % 100 : Nat) : Int) := (Int.ofNat_tmod y 100).symm
      have e400 : Int.tmod (y : Int) 400 = ((y % 400 : Nat) : Int) := (Int.ofNat_tmod y 400).symm
      interval_cases m <;>
        simp [daysInMonth, isLeapYear, gregorianDays, gregorianLeap, e4, e100, e400] <;>
        (try split_ifs) <;> (try norm_cast) <;> omega
    · simp only [gregorianDays]
      have : ¬ ((1:Int) ≤ m ∧ (m : Int) ≤ 12) := by omega
      simp
      omega
  · simp
    omega

theorem validateDate_shape (a b c d f g i j : Nat)
    (ha : isdigit a = true) (hb : isdigit b = true) (hc : isdigit c = true)
    (hd : isdigit d = true) (hf : isdigit f = true) (hg : isdigit g = true)
    (hi : isdigit i = true) (hj : isdigit j = true) :
    validateDate [a, b, c, d, 45, f, g, 45, i, j] =
      validateDateComponents
        ⟨((digitsValue [a, b, c, d] : Nat) : Int), ((digitsValue [f, g] : Nat) : Int),
          ((digitsValue [i, j] : Nat) : Int)⟩ := by
  rw [isdigit_iff] at ha hb hc hd hf hg hi hj
  have hy : stoi [a, b, c, d] = some ((digitsValue [a, b, c, d] : Nat) : Int) := by
    apply stoi_digits
    · simp
    · intro x hx
      simp at hx
      rw [isdigit_iff]
      rcases hx with rfl | rfl | rfl | rfl <;> omega
    · simp [digitsValue]; omega
  have hm : stoi [f, g] = some ((digitsValue [f, g] : Nat) : Int) := by
    apply stoi_digits
    · simp
    · intro x hx
      simp at hx
      rw [isdigit_iff]
      rcases hx with rfl | rfl <;> omega
    · simp [digitsValue]; omega
  have hdd : stoi [i, j] = some ((digitsValue [i, j] : Nat) : Int) := by
    apply stoi_digits
    · simp
    · intro x hx
      simp at hx
      rw [isdigit_iff]
      rcases hx with rfl | rfl <;> omega
    · simp [digitsValue]; omega
  simp [validateDate, DATE_LENGTH, parseDateComponents, substr, hy, hm, hdd]

/-- Claim C6: on a string of the shape `DDDD-DD-DD`, `validateDate` is true exactly
when the year is in `[1900, 2100]`, the month in `[1, 12]` and the day in
`[1, n]`, `n` the Gregorian day count of the month; 2000-02-29 and 2024-02-29
are accepted, 1900-02-29, 2023-02-29 and 2024-02-30 are rejected. -/
theorem validateDate_iff_calendar (s : List Nat) (h : isDateShape s = true) :
    (validateDate s = true ↔ calendarValid s) ∧
      validateDate (ascii "2000-02-29") = true ∧ validateDate (ascii "2024-02-29") = true ∧
      validateDate (ascii "1900-02-29") = false ∧ validateDate (ascii "2023-02-29") = false ∧
      validateDate (ascii "2024-02-30") = false := by
  refine ⟨?_, by decide, by decide, by decide, by decide, by decide⟩
  obtain ⟨a, b, c, d, f, g, i, j, rfl, ha, hb, hc, hd, hf, hg, hi, hj⟩ := isDateShape_cases s h
  rw [validateDate_shape a b c d f g i j ha hb hc hd hf hg hi hj, validateDateComponents_iff]
  have e1 : digitsValue [a, b, c, d] = yearOf [a, b, c, d, 45, f, g, 45, i, j] := by
    simp [digitsValue, yearOf]; ring
  have e2 : digitsValue [f, g] = monthOf [a, b, c, d, 45, f, g, 45, i, j] := by
    simp [digitsValue, monthOf]
  have e3 : digitsValue [i, j] = dayOf [a, b, c, d, 45, f, g, 45, i, j] := by
    simp [digitsValue, dayOf]
  rw [e1, e2, e3]
  rfl

theorem validateDate_iff_calendar_witness :
    isDateShape (ascii "2024-02-29") = true ∧
      ((validateDate (ascii "2024-02-29") = true ↔ calendarValid (ascii "2024-02-29")) ∧
      validateDate (ascii "2000-02-29") = true ∧ validateDate (ascii "2024-02-29") = true ∧
      validateDate (ascii "1900-02-29") = false ∧ validateDate (ascii "2023-02-29") = false ∧
      validateDate (ascii "2024-02-30") = false) :=
  ⟨by decide, validateDate_iff_calendar (ascii "2024-02-29") (by decide)⟩

/-- Claim C7, at the input `2024-1x-01`: the month field `1x` is not numeric, yet
`std::stoi` converts its leading digit and `validateDate` accepts the string. -/
theorem validateDate_accepts_letter :
    (ascii "2024-1x-01").length = 10 ∧ isdigit ((ascii "2024-1x-01").getD 6 0) = false ∧
      validateDate (ascii "2024-1x-01") = true := by
  decide

/-! ## Records inside the rendered file -/

theorem isDateShape_length (s : List Nat) (h : isDateShape s = true) : s.length = 10 := by
  obtain ⟨a, b, c, d, f, g, i, j, rfl, -⟩ := isDateShape_cases s h
  rfl

theorem isDateShape_no_newline (s : List Nat) (h : isDateShape s = true) :
    ∀ c ∈ s, c ≠ 10 := by
  obtain ⟨a, b, c, d, f, g, i, j, rfl, ha, hb, hc, hd, hf, hg, hi, hj⟩ := isDateShape_cases s h
  rw [isdigit_iff] at ha hb hc hd hf hg hi hj
  intro x hx
  simp at hx
  rcases hx with rfl | rfl | rfl | rfl | rfl | rfl | rfl | rfl | rfl | rfl <;> omega

theorem isDateShape_head_digit (s : List Nat) (h : isDateShape s = true) :
    isdigit (s.getD 0 0) = true := by
  obtain ⟨a, b, c, d, f, g, i, j, rfl, ha, -⟩ := isDateShape_cases s h
  simpa using ha

theorem render_append (xs ys : List Record) : render (xs ++ ys) = render xs ++ render ys := by
  induction xs with
  | nil => rfl
  | cons r xs ih => simp [render, ih]

theorem render_split (pre : List Record) (r : Record) (post : List Record) :
    render (pre ++ r :: post) = render pre ++ (r.line ++ render post) := by
  rw [render_append]; rfl

theorem Record.line_length (r : Record) :
    r.line.length = r.date.length + r.text.length + 1 := by
  simp only [Record.line, List.length_append, List.length_singleton]

theorem render_locate (rs : List Record) :
    ∀ i : Nat, i < (render rs).length →
      ∃ pre r post, rs = pre ++ r :: post ∧ (render pre).length ≤ i ∧
        i < (render pre).length + r.line.length := by
  induction rs with
  | nil => intro i h; simp [render] at h
  | cons r rs ih =>
    intro i h
    by_cases hi : i < r.line.length
    · exact ⟨[], r, rs, rfl, by simp [render], by simpa [render] using hi⟩
    · simp only [render, List.length_append] at h
      obtain ⟨pre, q, post, hrs, h1, h2⟩ := ih (i - r.line.length) (by omega)
      refine ⟨r :: pre, q, post, by simp [hrs], ?_, ?_⟩
      · simp only [render, List.length_append]; omega
      · simp only [render, List.length_append]; omega

theorem render_ends_newline (rs : List Record) (h : rs ≠ []) :
    ∃ X, render rs = X ++ [10] := by
  induction rs with
  | nil => exact absurd rfl h
  | cons r rs ih =>
    by_cases hrs : rs = []
    · subst hrs
      exact ⟨r.date ++ r.text, by simp [render, Record.line]⟩
    · obtain ⟨X, hX⟩ := ih hrs
      exact ⟨r.line ++ X, by simp [render, hX]⟩

theorem getD_mid_mem (A M C : List Nat) (j : Nat) (h1 : A.length ≤ j)
    (h2 : j < A.length + M.length) : (A ++ (M ++ C)).getD j 0 ∈ M := by
  rw [List.getD_append_right _ _ _ _ h1, List.getD_append _ _ _ _ (by omega),
    List.getD_eq_getElem _ _ (by omega)]
  exact List.getElem_mem _

theorem recordAt_of_split (pre : List Record) (r : Record) (post : List Record)
    (hr : r.wellFormed) :
    RecordAt (pre ++ r :: post) (render pre).length r := by
  obtain ⟨hshape, hvalid, htext, hlen⟩ := hr
  have hdl := isDateShape_length r.date hshape
  refine ⟨⟨hshape, hvalid, htext, hlen⟩, ?_, ?_, ?_, ?_, ?_⟩
  · rw [render_split]; simp only [List.length_append]; omega
  · rw [render_split, List.drop_left, Record.line, List.append_assoc, List.append_assoc]
    exact List.take_left' hdl
  · intro hpos
    have hne : pre ≠ [] := by
      rintro rfl
      simp [render] at hpos
    obtain ⟨X, hX⟩ := render_ends_newline pre hne
    rw [render_split, hX]
    have e : (X ++ [10]).length - 1 = X.length := by simp
    rw [e, List.append_assoc, List.getD_append_right _ _ _ _ (le_refl _)]
    simp
  · intro j h1 h2
    rw [render_split]
    have hmem : (render pre ++ ((r.date ++ r.text) ++ ([10] ++ render post))).getD j 0 ∈
        r.date ++ r.text := by
      apply getD_mid_mem _ _ _ _ h1
      rw [Record.line_length] at h2
      simp only [List.length_append]; omega
    have heq : r.line ++ render post = (r.date ++ r.text) ++ ([10] ++ render post) := by
      simp [Record.line]
    rw [heq]
    intro h10
    rw [h10] at hmem
    rcases List.mem_append.1 hmem with h | h
    · exact isDateShape_no_newline r.date hshape 10 h rfl
    · exact htext 10 h rfl
  · rw [render_split]
    have heq : render pre ++ (r.line ++ render post) =
        (render pre ++ (r.date ++ r.text)) ++ ([10] ++ render post) := by
      simp [Record.line]
    rw [heq, List.getD_append_right _ _ _ _ (by
      simp only [List.length_append, Record.line_length]; omega)]
    have : (render pre).length + r.line.length - 1 - (render pre ++ (r.date ++ r.text)).length = 0 := by
      simp only [List.length_append, Record.line_length]; omega
    rw [this]
    rfl

theorem recordAt_locate (rs : List Record) (hwf : WellFormedLog rs) (i : Nat)
    (h : i < (render rs).length) :
    ∃ s r, RecordAt rs s r ∧ r ∈ rs ∧ s ≤ i ∧ i < s + r.line.length := by
  obtain ⟨pre, r, post, hrs, h1, h2⟩ := render_locate rs i h
  have hmem : r ∈ rs := by rw [hrs]; simp
  refine ⟨(render pre).length, r, ?_, hmem, h1, h2⟩
  rw [hrs]
  exact recordAt_of_split pre r post (hwf.1 r hmem)

theorem recordAt_zero (r : Record) (rs : List Record) (hwf : WellFormedLog (r :: rs)) :
    RecordAt (r :: rs) 0 r :=
  recordAt_of_split [] r rs (hwf.1 r (by simp))

theorem findLineStart_record (rs : List Record) (s : Nat) (r : Record)
    (hr : RecordAt rs s r) (mid : Int) (h1 : (s : Int) ≤ mid)
    (h2 : mid < (s : Int) + r.line.length) :
    findLineStart (render rs) mid = .ok (s : Int) := by
  have hfit := hr.fits
  have hlen := hr.wf.2.2.2
  by_cases hmid : mid ≤ 0
  · have : (s : Int) = 0 := by omega
    rw [this]
    exact (findLineStart_cases (render rs) mid).1 hmid
  · obtain ⟨r0, h0, hb1, hb2, hb3, hb4⟩ :=
      (findLineStart_cases (render rs) mid).2.2 (by omega) (by omega)
    have hle : (s : Int) ≤ r0 := by
      apply hb4 s (by omega) h1
      by_cases hs : s = 0
      · left; omega
      · right
        have := hr.before (by omega)
        simp only [byteAt]
        have e : ((s : Int) - 1).toNat = s - 1 := by omega
        rw [e]; exact this
    have hge : r0 ≤ (s : Int) := by
      by_contra hcon
      rcases hb3 with h | h
      · omega
      · have := hr.inside (r0 - 1).toNat (by omega) (by omega)
        exact this h
    rw [h0]; congr 1; omega

theorem strLess_antisymm : ∀ a b : List Nat, strLess a b = false → strLess b a = false → a = b
  | [], [], _, _ => rfl
  | [], _ :: _, h, _ => by simp [strLess] at h
  | _ :: _, [], _, h => by simp [strLess] at h
  | a :: as, b :: bs, h1, h2 => by
    simp only [strLess] at h1 h2
    by_cases hab : a < b
    · simp [hab] at h1
    · by_cases hba : b < a
      · simp [hba] at h2
      · have : a = b := by omega
        subst this
        simp at h1 h2
        rw [strLess_antisymm as bs h1 h2]

theorem estimatePosition_wellFormed (r : Record) (rs : List Record)
    (hwf : WellFormedLog (r :: rs)) (target : List Nat) (b : Int) :
    estimatePosition (render (r :: rs)) target b =
      .ok (if calculateDaysDifference r.date target < 0 then 0
        else min (calculateDaysDifference r.date target * b)
          (((render (r :: rs)).length : Int) - 1)) := by
  have hr := recordAt_zero r rs hwf
  have hfit := hr.fits
  have hdl := isDateShape_length r.date hr.wf.1
  have hll := r.line_length
  obtain ⟨n, hn⟩ : ∃ n, min 1000 (render (r :: rs)).length = n + 1 :=
    ⟨min 1000 (render (r :: rs)).length - 1, by omega⟩
  have hlt : (0 : Int) < min (1000 : Int) ((render (r :: rs)).length : Int) := by omega
  have hb0 : readByte (render (r :: rs)) 0 = .ok (r.date.getD 0 0) := by
    rw [readByte_ok _ 0 (le_refl _) (by omega)]
    congr 1
    simp only [byteAt, Int.toNat_zero, render, Record.line, List.append_assoc]
    rw [List.getD_append _ _ _ _ (by omega)]
  have hd0 : readBytes (render (r :: rs)) 0 DATE_LENGTH = .ok r.date := by
    rw [readBytes_ok _ 0 _ (le_refl _) (by simp only [DATE_LENGTH]; omega)]
    congr 1
    have := hr.date_eq
    simpa [DATE_LENGTH] using this
  unfold estimatePosition
  rw [hn]
  simp only [estimateLoop, toSize_of_nonneg 0 (le_refl _), hlt, if_true, hb0, Outcome.bind,
    isDateShape_head_digit r.date hr.wf.1, hd0, hr.wf.2.1]
  split <;> rfl

theorem binarySearchStep_record_absent (rs : List Record) (target : List Nat)
    (left right : Int) (s : Nat) (r : Record) (hr : RecordAt rs s r)
    (hfl : findLineStart (render rs) (left + Int.tdiv (right - left) 2) = .ok (s : Int))
    (hne : r.date ≠ target) :
    ∃ l r', binarySearchStep (render rs) target true left right = .ok (.next l r') := by
  have hfit := hr.fits
  have hdl := isDateShape_length r.date hr.wf.1
  have hll := r.line_length
  have hs1 : ((s : Int) == -1) = false := by
    simp
  have hs2 : ¬ (toSize (s : Int) + (DATE_LENGTH : Nat) > ((render rs).length : Int)) := by
    rw [toSize_of_nonneg _ (by omega)]; simp only [DATE_LENGTH]; omega
  have hrd : readBytes (render rs) (s : Int) DATE_LENGTH = .ok r.date := by
    rw [readBytes_ok _ _ _ (by omega) (by simp only [DATE_LENGTH]; omega)]
    congr 1
    have := hr.date_eq
    simpa [DATE_LENGTH] using this
  simp only [binarySearchStep, hfl, Outcome.bind, hs1, hs2, hrd, if_true, if_false]
  by_cases h1 : strLess r.date target = true
  · exact ⟨left + Int.tdiv (right - left) 2 + 1, right, by simp [h1]⟩
  · by_cases h2 : strLess target r.date = true
    · exact ⟨left, left + Int.tdiv (right - left) 2 - 1, by simp [h1, h2]⟩
    · exact absurd (strLess_antisymm _ _ (by simpa using h1) (by simpa using h2)) hne

theorem binarySearchStep_absent (rs : List Record) (hwf : WellFormedLog rs)
    (target : List Nat) (habs : ∀ r ∈ rs, r.date ≠ target) (left right : Int) :
    binarySearchStep (render rs) target true left right = .ok (.done (-1)) ∨
      ∃ l r', binarySearchStep (render rs) target true left right = .ok (.next l r') := by
  by_cases hmid : left + Int.tdiv (right - left) 2 ≤ 0
  · have hfl := (findLineStart_cases (render rs) _).1 hmid
    cases rs with
    | nil =>
      right
      refine ⟨left, left + Int.tdiv (right - left) 2 - 1, ?_⟩
      simp only [binarySearchStep, hfl, Outcome.bind]
      simp [render, toSize, DATE_LENGTH]
    | cons r rs =>
      right
      exact binarySearchStep_record_absent (r :: rs) target left right 0 r
        (recordAt_zero r rs hwf) hfl (habs r (by simp))
  · by_cases hlen : ((render rs).length : Int) ≤ left + Int.tdiv (right - left) 2
    · left
      have hfl := (findLineStart_cases (render rs) _).2.1 (by omega) hlen
      simp [binarySearchStep, hfl, Outcome.bind]
    · right
      obtain ⟨s, r, hr, hmem, h1, h2⟩ :=
        recordAt_locate rs hwf (left + Int.tdiv (right - left) 2).toNat (by omega)
      have hfl := findLineStart_record rs s r hr (left + Int.tdiv (right - left) 2)
        (by omega) (by omega)
      exact binarySearchStep_record_absent rs target left right s r hr hfl (habs r hmem)

theorem binarySearchLoop_absent (rs : List Record) (hwf : WellFormedLog rs)
    (target : List Nat) (habs : ∀ r ∈ rs, r.date ≠ target) :
    ∀ (fuel : Nat) (left right : Int),
      binarySearchLoop (render rs) target true fuel left right = .ok (-1) := by
  intro fuel
  induction fuel with
  | zero => intro left right; rfl
  | succ n ih =>
    intro left right
    by_cases hlr : left ≤ right
    · rcases binarySearchStep_absent rs hwf target habs left right with h | ⟨l, r', h⟩
      · simp [binarySearchLoop, hlr, h, Outcome.bind]
      · simp [binarySearchLoop, hlr, h, Outcome.bind, ih]
    · simp [binarySearchLoop, hlr]

/-- Claim C4: on a non-empty well-formed sorted log in which no record has the
target date, `findDateBoundaries` ends without a fault and returns not found
(`start = -1`, and `end = -1` with it). -/
theorem findDateBoundaries_absent (rs : List Record) (target : List Nat)
    (hwf : WellFormedLog rs) (hne : rs ≠ []) (habs : ∀ r ∈ rs, r.date ≠ target) :
    findDateBoundaries (render rs) target = .ok (-1, -1) := by
  obtain ⟨r, rest, rfl⟩ := List.exists_cons_of_ne_nil hne
  simp [findDateBoundaries, estimatePosition_wellFormed r rest hwf, Outcome.bind, binarySearch,
    binarySearchLoop_absent (r :: rest) hwf target habs]

theorem findDateBoundaries_absent_witness :
    WellFormedLog scenarioLog ∧ scenarioLog ≠ [] ∧
      (∀ r ∈ scenarioLog, r.date ≠ ascii "2024-01-03") ∧
      render scenarioLog = ascii "2024-01-01 a\n2024-01-01 b\n2024-01-02 c\n" ∧
      findDateBoundaries (render scenarioLog) (ascii "2024-01-03") = .ok (-1, -1) :=
  ⟨by decide, by decide, by decide, by decide,
    findDateBoundaries_absent scenarioLog (ascii "2024-01-03") (by decide) (by decide)
      (by decide)⟩

/-! ## The code at particular inputs -/

/-- Claim C1, at the scenario of the specification: the file has fewer than 365
bytes, so `bytes_per_day` is 0 and the window is the single offset 0; the first
search returns 0, the second finds the next record still of the target date,
leaves the window and returns -1, and `extractLogs` reports that no log was
found instead of writing the first two lines. -/
theorem scenario_first_day_not_found :
    scenarioBuffer.length = 39 ∧
      findDateBoundaries scenarioBuffer (ascii "2024-01-01") = .ok (0, -1) ∧
      extractLogs scenarioBuffer (ascii "2024-01-01") = .ok .noLogs := by
  decide

/-- Claim C2, at `fragileLog` and the date 2024-01-25: the range returned is
`[24, 36)`, although the record just before offset 24, which starts at 12, has
the target date too. The ten bytes that the first search compares with the
target end just before the line start, and are the end of the line before. -/
theorem fragileLog_range_misses_record :
    WellFormedLog fragileLog ∧ validateDate (ascii "2024-01-25") = true ∧
      findDateBoundaries (render fragileLog) (ascii "2024-01-25") = .ok (24, 36) ∧
      findLineStart (render fragileLog) 23 = .ok 12 ∧
      readBytes (render fragileLog) 12 DATE_LENGTH = .ok (ascii "2024-01-25") ∧
      readBytes (render fragileLog) (24 - 11) DATE_LENGTH = .ok (ascii "024-01-25x") := by
  decide

/-- Claim C3, at `twoDayLog` and the date 2024-01-02: the log holds a record of
that date, the estimate is offset 0 and the window `[0, 0]`, and nothing is
found. -/
theorem twoDayLog_second_day_not_found :
    WellFormedLog twoDayLog ∧ validateDate (ascii "2024-01-02") = true ∧
      (∃ r ∈ twoDayLog, r.date = ascii "2024-01-02") ∧
      estimatePosition (render twoDayLog) (ascii "2024-01-02") 0 = .ok 0 ∧
      findDateBoundaries (render twoDayLog) (ascii "2024-01-02") = .ok (-1, -1) := by
  decide

/-- Claim C5, at `sameDayLog` and the date 2024-01-01, the date of its first and
of its last record: the second search returns -1, so no range is returned. -/
theorem sameDayLog_no_range :
    WellFormedLog sameDayLog ∧ validateDate (ascii "2024-01-01") = true ∧
      sameDayLog.head?.map Record.date = some (ascii "2024-01-01") ∧
      sameDayLog.getLast?.map Record.date = some (ascii "2024-01-01") ∧
      findDateBoundaries (render sameDayLog) (ascii "2024-01-01") = .ok (0, -1) := by
  decide

/-- Claim C8, at three inputs: the first-date read of `estimatePosition` (10 bytes
at offset 0 of a 2-byte file), the next-record read of `binarySearch` (10 bytes
at offset 13 of a 17-byte file) and its previous-record read (10 bytes at
offset -9) are made although they leave the buffer. -/
theorem dateKey_reads_leave_buffer :
    (ascii "7\n").length = 2 ∧
      findDateBoundaries (ascii "7\n") (ascii "2024-01-25") = .fault 0 10 ∧
      (ascii "2024-01-01 a\n2024").length = 17 ∧
      findDateBoundaries (ascii "2024-01-01 a\n2024") (ascii "2024-01-01") = .fault 13 10 ∧
      findDateBoundaries shortFirstLine (ascii "2024-01-01") = .fault (-9) 10 := by
  decide

/-- Claim C9, at `longLine` and offset 0: no newline exists, the scan stops at the
cap, offset 1000, and `findNextLine` returns 1001, which is not the length 1002
of the buffer. -/
theorem findNextLine_cap_overshoots :
    longLine.length = 1002 ∧ (∀ i : Int, byteAt longLine i ≠ 10) ∧
      findNextLine longLine 0 = .ok 1001 := by
  have hno : ∀ i : Int, byteAt longLine i ≠ 10 := by
    intro i
    simp only [byteAt, longLine, List.getD_eq_getElem?_getD, List.getElem?_replicate]
    split <;> simp
  refine ⟨by simp [longLine], hno, ?_⟩
  have h := findNextLine_cap longLine 0 (le_refl _) (by simp [longLine]) (fun j _ _ => hno j)
  simpa using h

/-! ## Streaming the range, and the order of dates -/

theorem copyLoopProgress_spec (buf : List Nat) (end_pos : Nat) (hend : end_pos ≤ buf.length) :
    ∀ (fuel pos bw : Nat), pos ≤ end_pos → end_pos - pos ≤ fuel →
      ((copyLoopProgress buf end_pos fuel pos bw).map Prod.fst).flatten =
          (buf.drop pos).take (end_pos - pos) ∧
        (copyLoopProgress buf end_pos fuel pos bw).map Prod.fst = copyLoop buf end_pos fuel pos ∧
        (∀ c ∈ copyLoopProgress buf end_pos fuel pos bw,
          0 < c.1.length ∧ c.1.length ≤ 16384 ∧ bw < c.2) ∧
        ((copyLoopProgress buf end_pos fuel pos bw).map Prod.snd).Pairwise (· < ·) ∧
        (copyLoopProgress buf end_pos fuel pos bw).map Prod.snd =
          runningTotals bw ((copyLoopProgress buf end_pos fuel pos bw).map (fun c => c.1.length)) ∧
        ((copyLoopProgress buf end_pos fuel pos bw).map Prod.snd).getLastD bw =
          bw + (end_pos - pos) := by
  intro fuel
  induction fuel with
  | zero =>
    intro pos bw h1 h2
    have : end_pos - pos = 0 := by omega
    simp [copyLoopProgress, copyLoop, runningTotals, this]
  | succ n ih =>
    intro pos bw h1 h2
    by_cases hp : pos < end_pos
    · have hcs : 0 < min BUFFER_SIZE (end_pos - pos) := by
        simp only [BUFFER_SIZE]; omega
      have hcs2 : min BUFFER_SIZE (end_pos - pos) ≤ 16384 := by
        simp only [BUFFER_SIZE]; omega
      have hcs3 : min BUFFER_SIZE (end_pos - pos) ≤ end_pos - pos := Nat.min_le_right _ _
      obtain ⟨i1, i2, i3, i4, i5, i6⟩ :=
        ih (pos + min BUFFER_SIZE (end_pos - pos)) (bw + min BUFFER_SIZE (end_pos - pos))
          (by omega) (by omega)
      have hlen : ((buf.drop pos).take (min BUFFER_SIZE (end_pos - pos))).length =
          min BUFFER_SIZE (end_pos - pos) := by
        rw [List.length_take, List.length_drop]; omega
      simp only [copyLoopProgress, copyLoop, hp, if_true, List.map_cons, List.flatten_cons]
      refine ⟨?_, ?_, ?_, ?_, ?_, ?_⟩
      · rw [i1]
        have e : end_pos - pos = min BUFFER_SIZE (end_pos - pos) +
            (end_pos - (pos + min BUFFER_SIZE (end_pos - pos))) := by omega
        conv_rhs => rw [e, List.take_add]
        rw [List.drop_drop, Nat.add_comm]
      · rw [i2]
      · intro c hc
        rcases List.mem_cons.1 hc with rfl | hc
        · exact ⟨by rw [hlen]; exact hcs, by rw [hlen]; exact hcs2, by omega⟩
        · obtain ⟨a, b, c'⟩ := i3 c hc
          exact ⟨a, b, by omega⟩
      · rw [List.pairwise_cons]
        refine ⟨?_, i4⟩
        intro x hx
        obtain ⟨c, hc, rfl⟩ := List.mem_map.1 hx
        exact (i3 c hc).2.2
      · simp only [runningTotals, hlen]
        rw [← i5]
      · rw [List.getLastD_cons, i6]
        omega
    · have : end_pos - pos = 0 := by omega
      simp [copyLoopProgress, copyLoop, hp, runningTotals, this]

/-- Claim C11: for a range `0 <= start <= end <= len` the copy loop writes chunks
whose concatenation is `buf[start..end)`, every chunk is non-empty and at most
16384 bytes long, and the byte counts reported after the chunks are the running
totals of the chunk sizes, strictly increasing and ending at `end - start`. -/
theorem copyLoop_stream (buf : List Nat) (start_pos end_pos : Nat)
    (h1 : start_pos ≤ end_pos) (h2 : end_pos ≤ buf.length) :
    ((copyLoopProgress buf end_pos (end_pos - start_pos) start_pos 0).map Prod.fst).flatten =
        (buf.drop start_pos).take (end_pos - start_pos) ∧
      (copyLoopProgress buf end_pos (end_pos - start_pos) start_pos 0).map Prod.fst =
        copyLoop buf end_pos (end_pos - start_pos) start_pos ∧
      (∀ c ∈ copyLoopProgress buf end_pos (end_pos - start_pos) start_pos 0,
        0 < c.1.length ∧ c.1.length ≤ 16384) ∧
      ((copyLoopProgress buf end_pos (end_pos - start_pos) start_pos 0).map Prod.snd).Pairwise
        (· < ·) ∧
      (copyLoopProgress buf end_pos (end_pos - start_pos) start_pos 0).map Prod.snd =
        runningTotals 0
          ((copyLoopProgress buf end_pos (end_pos - start_pos) start_pos 0).map
            (fun c => c.1.length)) ∧
      ((copyLoopProgress buf end_pos (end_pos - start_pos) start_pos 0).map Prod.snd).getLastD 0 =
        end_pos - start_pos := by
  obtain ⟨i1, i2, i3, i4, i5, i6⟩ :=
    copyLoopProgress_spec buf end_pos h2 (end_pos - start_pos) start_pos 0 h1 (le_refl _)
  refine ⟨i1, i2, fun c hc => ⟨(i3 c hc).1, (i3 c hc).2.1⟩, i4, i5, ?_⟩
  rw [i6]; omega

theorem copyLoop_stream_witness :
    (0 : Nat) ≤ 26 ∧ 26 ≤ scenarioBuffer.length ∧
      copyLoopProgress scenarioBuffer 26 (26 - 0) 0 0 =
        [(ascii "2024-01-01 a\n2024-01-01 b\n", 26)] ∧
      ((copyLoopProgress scenarioBuffer 26 (26 - 0) 0 0).map Prod.fst).flatten =
        (scenarioBuffer.drop 0).take (26 - 0) :=
  ⟨by decide, by decide, by decide,
    (copyLoop_stream scenarioBuffer 0 26 (by decide) (by decide)).1⟩

/-- Claim C12, at a one-record file whose first `write` fails: the loop makes its
call, nothing is written, the stream is in error state, and `extractLogs`
returns `true`, so that `main` exits with code 0. -/
theorem sink_failure_reported_as_success :
    extractLogsTo (fun _ => true) oneRecordLog (ascii "2024-01-01") =
        .ok (true, ⟨[], true⟩, 1) ∧
      exitCode true = 0 ∧
      extractLogsTo (fun _ => false) oneRecordLog (ascii "2024-01-01") =
        .ok (true, ⟨[oneRecordLog], false⟩, 1) := by
  decide

/-- At `garbledDateLog` none of the 16 offsets starts a date that `validateDate`
accepts, and at the digit at offset 8 the scan asks for ten bytes of a file
that ends at offset 16: the read leaves the buffer. -/
theorem estimatePosition_garbled :
    garbledDateLog.length = 16 ∧
      (∀ p < 16, validateDate ((garbledDateLog.drop p).take 10) = false) ∧
      estimatePosition garbledDateLog (ascii "2024-01-01") 0 = .fault 8 10 := by
  decide

theorem strLess_cons (x y : Nat) (as bs : List Nat) :
    strLess (x :: as) (y :: bs) = true ↔ x < y ∨ (x = y ∧ strLess as bs = true) := by
  simp only [strLess]
  split_ifs with h1 h2
  · simp [h1]
  · simp; omega
  · have : x = y := by omega
    simp [this]

theorem strLess_nil : strLess [] [] = true ↔ False := by
  simp [strLess]

/-- Claim C14: on two strings of the shape `DDDD-DD-DD` the comparison of
`binarySearch` is the order of the `(year, month, day)` triples, and the strings
are equal exactly when the triples are. -/
theorem strLess_iff_tripleLess (a b : List Nat) (ha : isDateShape a = true)
    (hb : isDateShape b = true) :
    (strLess a b = true ↔ tripleLess (dateTriple a) (dateTriple b)) ∧
      (a = b ↔ dateTriple a = dateTriple b) := by
  obtain ⟨a0, a1, a2, a3, a5, a6, a8, a9, rfl, h0, h1, h2, h3, h5, h6, h8, h9⟩ :=
    isDateShape_cases a ha
  obtain ⟨b0, b1, b2, b3, b5, b6, b8, b9, rfl, k0, k1, k2, k3, k5, k6, k8, k9⟩ :=
    isDateShape_cases b hb
  rw [isdigit_iff] at h0 h1 h2 h3 h5 h6 h8 h9 k0 k1 k2 k3 k5 k6 k8 k9
  constructor
  · simp only [strLess_cons, strLess_nil, dateTriple, tripleLess, yearOf, monthOf, dayOf,
      List.getD_cons_zero, List.getD_cons_succ, and_false, or_false, lt_irrefl, false_or,
      true_and]
    constructor <;> intro h <;> omega
  · simp only [dateTriple, yearOf, monthOf, dayOf, List.getD_cons_zero, List.getD_cons_succ,
      List.cons.injEq, Prod.mk.injEq, and_true, true_and]
    constructor
    · rintro ⟨rfl, rfl, rfl, rfl, rfl, rfl, rfl, rfl⟩
      exact ⟨rfl, rfl, rfl⟩
    · rintro ⟨e1, e2, e3⟩
      refine ⟨?_, ?_, ?_, ?_, ?_, ?_, ?_, ?_⟩ <;> omega

theorem strLess_iff_tripleLess_witness :
    isDateShape (ascii "2023-12-31") = true ∧ isDateShape (ascii "2024-01-01") = true ∧
      ((strLess (ascii "2023-12-31") (ascii "2024-01-01") = true ↔
          tripleLess (dateTriple (ascii "2023-12-31")) (dateTriple (ascii "2024-01-01"))) ∧
        (ascii "2023-12-31" = ascii "2024-01-01" ↔
          dateTriple (ascii "2023-12-31") = dateTriple (ascii "2024-01-01"))) ∧
      strLess (ascii "2023-12-31") (ascii "2024-01-01") = true :=
  ⟨by decide, by decide,
    strLess_iff_tripleLess (ascii "2023-12-31") (ascii "2024-01-01") (by decide) (by decide),
    by decide⟩

/-- Claim C15, at the scenario of the specification: over the full window `[0, 38]`
the first-occurrence search returns 13, the start of the second record of
2024-01-01, although the record before it, at offset 0, has the target date. -/
theorem first_occurrence_not_first :
    WellFormedLog scenarioLog ∧ render scenarioLog = scenarioBuffer ∧
      ((scenarioBuffer.length : Int) - 1 = 38) ∧
      binarySearch scenarioBuffer (ascii "2024-01-01") 0 38 true = .ok 13 ∧
      findLineStart scenarioBuffer 12 = .ok 0 ∧
      readBytes scenarioBuffer 0 DATE_LENGTH = .ok (ascii "2024-01-01") := by
  decide

/-! ## What an iteration of the binary search returns -/

theorem binarySearchStep_done (buf target : List Nat) (find_start : Bool) (left right v : Int)
    (h : binarySearchStep buf target find_start left right = .ok (.done v)) :
    v = -1 ∨
      (find_start = true ∧
        findLineStart buf (left + Int.tdiv (right - left) 2) = .ok v) ∨
      (find_start = false ∧ ∃ ls,
        findLineStart buf (left + Int.tdiv (right - left) 2) = .ok ls ∧ ls ≠ -1 ∧
          findNextLine buf ls = .ok v) := by
  simp only [binarySearchStep, Outcome.bind] at h
  repeat' split at h
  all_goals first
    | (simp at h; done)
    | (simp only [Outcome.ok.injEq, Step.done.injEq] at h; subst h; simp_all)

theorem binarySearchLoop_induct (buf target : List Nat) (find_start : Bool)
    (Inv : Int → Int → Prop) (Q : Int → Prop)
    (hdone : ∀ left right v, Inv left right → left ≤ right →
      binarySearchStep buf target find_start left right = .ok (.done v) → v = -1 ∨ Q v)
    (hnext : ∀ left right l r, Inv left right → left ≤ right →
      binarySearchStep buf target find_start left right = .ok (.next l r) → Inv l r) :
    ∀ (fuel : Nat) (left right v : Int), Inv left right →
      binarySearchLoop buf target find_start fuel left right = .ok v → v = -1 ∨ Q v := by
  intro fuel
  induction fuel with
  | zero =>
    intro left right v _ h
    simp only [binarySearchLoop, Outcome.ok.injEq] at h
    exact Or.inl h.symm
  | succ n ih =>
    intro left right v hinv h
    by_cases hlr : left ≤ right
    · simp only [binarySearchLoop, hlr, if_true] at h
      cases hst : binarySearchStep buf target find_start left right with
      | fault o c => simp [hst, Outcome.bind] at h
      | ok st =>
        cases st with
        | done w =>
          simp only [hst, Outcome.bind, Outcome.ok.injEq] at h
          subst h
          exact hdone left right w hinv hlr hst
        | next l r =>
          simp only [hst, Outcome.bind] at h
          exact ih l r v (hnext left right l r hinv hlr hst) h
    · simp only [binarySearchLoop, hlr, if_false, Outcome.ok.injEq] at h
      exact Or.inl h.symm

theorem findLineStart_result (buf : List Nat) (mid v : Int)
    (h : findLineStart buf mid = .ok v) (hv : v ≠ -1) :
    0 ≤ v ∧ (mid ≤ 0 → v = 0) ∧ (0 < mid → mid < buf.length) ∧
      (0 < mid → v ≤ mid ∧ mid ≤ v + 1000) ∧
      (v = 0 ∨ byteAt buf (v - 1) = 10 ∨ (0 < v ∧ v = mid - 1000)) ∧
      ∀ j, v ≤ j → j < mid → byteAt buf j ≠ 10 := by
  obtain ⟨c1, c2, c3⟩ := findLineStart_cases buf mid
  by_cases hmid : mid ≤ 0
  · have := c1 hmid
    rw [this] at h
    simp only [Outcome.ok.injEq] at h
    subst h
    exact ⟨le_refl _, fun _ => rfl, fun h' => by omega, fun h' => by omega, Or.inl rfl,
      fun j h1 h2 => by omega⟩
  · by_cases hlen : (buf.length : Int) ≤ mid
    · have := c2 (by omega) hlen
      rw [this] at h
      simp only [Outcome.ok.injEq] at h
      exact absurd h.symm hv
    · obtain ⟨r, hr, h1, h2, h3, h4⟩ := c3 (by omega) (by omega)
      rw [hr] at h
      simp only [Outcome.ok.injEq] at h
      subst h
      refine ⟨by omega, fun h' => by omega, fun _ => by omega, fun _ => by omega, ?_, ?_⟩
      · rcases h3 with h3 | h3
        · by_cases hz : mid - 1000 ≤ 0
          · left; omega
          · right; right; omega
        · right; left; exact h3
      · intro j hj1 hj2 hj
        have := h4 (j + 1) (by omega) (by omega) (Or.inr (by simpa using hj))
        omega

theorem findNextLine_result (buf : List Nat) (pos : Int) (h0 : 0 ≤ pos) :
    ∃ v, findNextLine buf pos = .ok v ∧ v ≤ buf.length ∧
      (v = buf.length ∨ byteAt buf (v - 1) = 10 ∨
        (v = pos + 1001 ∧ pos + 1000 < buf.length ∧
          ∀ j, pos ≤ j → j < pos + 1000 → byteAt buf j ≠ 10)) ∧
      ∀ m, pos ≤ m → m < buf.length → m ≤ pos + 1000 →
        (∀ j, pos ≤ j → j < m → byteAt buf j ≠ 10) → m < v := by
  by_cases hpl : pos ≤ buf.length
  · by_cases hs : (buf.length : Int) ≤ pos + 1000
    · have hmin : min (buf.length : Int) (pos + 1000) = buf.length := by omega
      obtain ⟨p, hp, hp1, hp2, hp3, hp4⟩ :=
        nextLineLoop_spec buf (buf.length : Int) (le_refl _)
          ((buf.length : Int) - pos).toNat pos h0 (by omega) (by omega)
      by_cases hpl' : p < buf.length
      · have hnl : byteAt buf p = 10 := by
          rcases hp3 with h | h
          · omega
          · exact h
        refine ⟨p + 1, ?_, by omega, Or.inr (Or.inl (by simpa using hnl)), ?_⟩
        · simp only [findNextLine, toSize_of_nonneg (pos + 1000) (by omega), hmin, hp,
            Outcome.bind, toSize_of_nonneg p (by omega), hpl', if_true]
        · intro m hm1 hm2 hm3 hm4
          by_contra hcon
          exact hm4 p hp1 (by omega) hnl
      · have hpe : p = buf.length := by omega
        subst hpe
        refine ⟨(buf.length : Int), ?_, le_refl _, Or.inl rfl, fun m _ hm2 _ _ => hm2⟩
        simp only [findNextLine, toSize_of_nonneg (pos + 1000) (by omega), hmin, hp,
          Outcome.bind, toSize_of_nonneg (buf.length : Int) (by omega), lt_irrefl, if_false]
    · have hmin : min (buf.length : Int) (pos + 1000) = pos + 1000 := by omega
      obtain ⟨p, hp, hp1, hp2, hp3, hp4⟩ :=
        nextLineLoop_spec buf (pos + 1000) (by omega) (pos + 1000 - pos).toNat pos h0
          (by omega) (by omega)
      have hpl' : p < buf.length := by omega
      refine ⟨p + 1, ?_, by omega, ?_, ?_⟩
      · simp only [findNextLine, toSize_of_nonneg (pos + 1000) (by omega), hmin, hp,
          Outcome.bind, toSize_of_nonneg p (by omega), hpl', if_true]
      · by_cases hnl : byteAt buf p = 10
        · exact Or.inr (Or.inl (by simpa using hnl))
        · have hpe : p = pos + 1000 := by
            rcases hp3 with h | h
            · exact h
            · exact absurd h hnl
          subst hpe
          exact Or.inr (Or.inr ⟨by omega, by omega, hp4⟩)
      · intro m hm1 hm2 hm3 hm4
        by_contra hcon
        have hpm : p < m := by omega
        rcases hp3 with h | h
        · omega
        · exact hm4 p hp1 hpm h
  · refine ⟨(buf.length : Int), findNextLine_eof buf pos h0 (by omega)
      (fun j h1 h2 => by omega), le_refl _, Or.inl rfl, fun m h1 h2 _ _ => by omega⟩

theorem estimateLoop_range (buf target : List Nat) (b : Int) (hb : 0 ≤ b)
    (hlen : 0 < buf.length) :
    ∀ (fuel : Nat) (pos v : Int), estimateLoop buf target b fuel pos = .ok v →
      v = -1 ∨ (0 ≤ v ∧ v ≤ (buf.length : Int) - 1) := by
  intro fuel
  induction fuel with
  | zero =>
    intro pos v h
    simp only [estimateLoop, Outcome.ok.injEq] at h
    exact Or.inl h.symm
  | succ n ih =>
    intro pos v h
    simp only [estimateLoop, Outcome.bind] at h
    repeat' split at h
    all_goals first
      | (simp at h; done)
      | (exact ih _ _ h)
      | (simp only [Outcome.ok.injEq] at h; subst h; right
         first
          | omega
          | exact ⟨le_min (mul_nonneg (by omega) hb) (by omega), min_le_right _ _⟩)
      | (simp only [Outcome.ok.injEq] at h; left; exact h.symm)

/-! ## Alignment, window and bounds of the range -/

theorem linesBounded_no_run (buf : List Nat) (hb : LinesBounded buf) (i : Int) (h0 : 0 ≤ i)
    (hlen : i + 1000 < buf.length)
    (hno : ∀ j, i ≤ j → j < i + 1000 → byteAt buf j ≠ 10) : False := by
  obtain ⟨j, hj1, hj2, hj3⟩ := hb i.toNat (by omega)
  refine hno (j : Int) (by omega) (by omega) ?_
  simpa [byteAt] using hj3

theorem binarySearchLoop_start_aligned (buf target : List Nat) (hb : LinesBounded buf)
    (fuel : Nat) (left right v : Int)
    (h : binarySearchLoop buf target true fuel left right = .ok v) :
    v = -1 ∨ (v = 0 ∨ byteAt buf (v - 1) = 10) := by
  refine binarySearchLoop_induct buf target true (fun _ _ => True)
    (fun v => v = 0 ∨ byteAt buf (v - 1) = 10) ?_ (fun _ _ _ _ _ _ _ => trivial)
    fuel left right v trivial h
  intro left right v _ _ hd
  rcases binarySearchStep_done buf target true left right v hd with h1 | ⟨_, h2⟩ | ⟨h3, _⟩
  · exact Or.inl h1
  · by_cases hv : v = -1
    · exact Or.inl hv
    · right
      obtain ⟨r0, r1, r2, r3, r4, r5⟩ := findLineStart_result buf _ v h2 hv
      rcases r4 with h | h | ⟨hpos, heq⟩
      · exact Or.inl h
      · exact Or.inr h
      · exfalso
        have hmid : 0 < left + Int.tdiv (right - left) 2 := by omega
        exact linesBounded_no_run buf hb v r0 (by have := r2 hmid; omega)
          (fun j hj1 hj2 => r5 j hj1 (by omega))
  · exact absurd h3 (by decide)

theorem binarySearchLoop_end_aligned (buf target : List Nat) (hb : LinesBounded buf)
    (fuel : Nat) (left right v : Int)
    (h : binarySearchLoop buf target false fuel left right = .ok v) :
    v = -1 ∨ (v = buf.length ∨ byteAt buf (v - 1) = 10) := by
  refine binarySearchLoop_induct buf target false (fun _ _ => True)
    (fun v => v = buf.length ∨ byteAt buf (v - 1) = 10) ?_ (fun _ _ _ _ _ _ _ => trivial)
    fuel left right v trivial h
  intro left right v _ _ hd
  rcases binarySearchStep_done buf target false left right v hd with
    h1 | ⟨h2, _⟩ | ⟨_, ls, hls, hne, hnl⟩
  · exact Or.inl h1
  · exact absurd h2 (by decide)
  · right
    obtain ⟨r0, -⟩ := findLineStart_result buf _ ls hls hne
    obtain ⟨w, hw, _, hw2, _⟩ := findNextLine_result buf ls r0
    rw [hw] at hnl
    simp only [Outcome.ok.injEq] at hnl
    subst hnl
    rcases hw2 with h | h | ⟨_, hlt, hno⟩
    · exact Or.inl h
    · exact Or.inr h
    · exact absurd (linesBounded_no_run buf hb ls r0 hlt hno) id

theorem linesBounded_of_wellFormed (rs : List Record) (hwf : WellFormedLog rs) :
    LinesBounded (render rs) := by
  intro i hi
  obtain ⟨s, r, hr, _, h1, h2⟩ := recordAt_locate rs hwf i (by omega)
  have hlen := hr.wf.2.2.2
  have hfit := hr.fits
  have hll := r.line_length
  exact ⟨s + r.line.length - 1, by omega, by omega, hr.last⟩

/-- Claim C17: in a buffer without a line longer than 1000 bytes, a range
`[start, end)` returned by `findDateBoundaries` lies on record boundaries:
`start` is 0 or follows a newline, and `end` is `len` or follows a newline. -/
theorem findDateBoundaries_aligned (buf target : List Nat) (s e : Int)
    (hb : LinesBounded buf) (h : findDateBoundaries buf target = .ok (s, e))
    (hs : s ≠ -1) (he : e ≠ -1) :
    (s = 0 ∨ byteAt buf (s - 1) = 10) ∧ (e = buf.length ∨ byteAt buf (e - 1) = 10) := by
  simp only [findDateBoundaries] at h
  cases hest : estimatePosition buf target ((buf.length / 365 : Nat) : Int) with
  | fault o c =>
    rw [hest] at h
    simp [Outcome.bind] at h
  | ok est =>
    simp only [hest, Outcome.bind] at h
    cases hst : binarySearch buf target (searchWindow buf.length est).1
        (searchWindow buf.length est).2 true with
    | fault o c => simp [hst] at h
    | ok start =>
      simp only [hst] at h
      by_cases hstart : start = -1
      · simp [hstart] at h
        exact absurd h.1.symm hs
      · have hne : (start != -1) = true := by simpa using hstart
        simp only [hne, if_true] at h
        cases hen : binarySearch buf target start (searchWindow buf.length est).2 false with
        | fault o c => simp [hen] at h
        | ok stop =>
          simp only [hen, Outcome.ok.injEq, Prod.mk.injEq] at h
          obtain ⟨rfl, rfl⟩ := h
          constructor
          · rcases binarySearchLoop_start_aligned buf target hb _ _ _ _ hst with h1 | h1
            · exact absurd h1 hs
            · exact h1
          · rcases binarySearchLoop_end_aligned buf target hb _ _ _ _ hen with h1 | h1
            · exact absurd h1 he
            · exact h1

theorem findDateBoundaries_aligned_witness :
    LinesBounded (render alignedLog) ∧ (render alignedLog).length = 1200 ∧
      findDateBoundaries (render alignedLog) (ascii "2024-01-09") = .ok (24, 36) ∧
      (24 : Int) ≠ -1 ∧ (36 : Int) ≠ -1 ∧
      (((24 : Int) = 0 ∨ byteAt (render alignedLog) (24 - 1) = 10) ∧
        ((36 : Int) = (render alignedLog).length ∨ byteAt (render alignedLog) (36 - 1) = 10)) ∧
      byteAt (render alignedLog) 23 = 10 ∧ byteAt (render alignedLog) 35 = 10 :=
  have hb : LinesBounded (render alignedLog) :=
    linesBounded_of_wellFormed alignedLog (by decide)
  ⟨hb, by decide, by decide, by decide, by decide,
    findDateBoundaries_aligned (render alignedLog) (ascii "2024-01-09") 24 36 hb (by decide)
      (by decide) (by decide),
    by decide, by decide⟩

/-- Claim C18: for a non-empty buffer `findDateBoundaries` searches with
`b = len / 365` in the window `[max(0, e - 2b), min(len-1, e + 2b)]` when
`estimatePosition` yields an offset `e`, and in `[0, len-1]` when it yields -1;
in both cases `0 <= left <= right <= len-1`. -/
theorem searchWindow_bounds (buf target : List Nat) (e : Int) (hne : buf ≠ [])
    (he : estimatePosition buf target ((buf.length / 365 : Nat) : Int) = .ok e) :
    (e ≠ -1 → searchWindow buf.length e =
        (max 0 (e - ((buf.length / 365 : Nat) : Int) * 2),
          min ((buf.length : Int) - 1) (e + ((buf.length / 365 : Nat) : Int) * 2))) ∧
      (e = -1 → searchWindow buf.length e = (0, (buf.length : Int) - 1)) ∧
      0 ≤ (searchWindow buf.length e).1 ∧
      (searchWindow buf.length e).1 ≤ (searchWindow buf.length e).2 ∧
      (searchWindow buf.length e).2 ≤ (buf.length : Int) - 1 ∧
      findDateBoundaries buf target =
        (binarySearch buf target (searchWindow buf.length e).1
          (searchWindow buf.length e).2 true).bind fun start =>
            if start != -1 then
              (binarySearch buf target start (searchWindow buf.length e).2 false).bind
                fun stop => .ok (start, stop)
            else .ok (start, -1) := by
  have hlen : 0 < buf.length := List.length_pos.2 hne
  have hb : (0 : Int) ≤ ((buf.length / 365 : Nat) : Int) := Int.natCast_nonneg _
  have hr := estimateLoop_range buf target _ hb hlen _ _ _ he
  refine ⟨?_, ?_, ?_, ?_, ?_, ?_⟩
  · intro h
    have : (e != -1) = true := by simpa using h
    simp only [searchWindow, this, if_true]
  · intro h
    subst h
    simp [searchWindow]
  · by_cases h : e = -1
    · subst h; simp [searchWindow]
    · have : (e != -1) = true := by simpa using h
      simp only [searchWindow, this, if_true]
      exact le_max_left _ _
  · by_cases h : e = -1
    · subst h; simp [searchWindow]; omega
    · have hn : (e != -1) = true := by simpa using h
      simp only [searchWindow, hn, if_true]
      rcases hr with hr | hr
      · exact absurd hr h
      · omega
  · by_cases h : e = -1
    · subst h; simp [searchWindow]
    · have : (e != -1) = true := by simpa using h
      simp only [searchWindow, this, if_true]
      exact min_le_left _ _
  · simp only [findDateBoundaries, he, Outcome.bind]

theorem searchWindow_bounds_witness :
    fragileLog ≠ [] ∧
      estimatePosition (render fragileLog) (ascii "2024-01-25")
        (((render fragileLog).length / 365 : Nat) : Int) = .ok 24 ∧
      searchWindow (render fragileLog).length 24 = (22, 26) ∧
      (0 : Int) ≤ (searchWindow (render fragileLog).length 24).1 ∧
      (searchWindow (render fragileLog).length 24).1 ≤
        (searchWindow (render fragileLog).length 24).2 ∧
      (searchWindow (render fragileLog).length 24).2 ≤ ((render fragileLog).length : Int) - 1 :=
  have h := searchWindow_bounds (render fragileLog) (ascii "2024-01-25") 24 (by decide)
    (by decide)
  ⟨by decide, by decide, by decide, h.2.2.1, h.2.2.2.1, h.2.2.2.2.1⟩

/-- Claim C19: `binarySearch` terminates: a counter of `right - left + 1`
iterations is never exhausted (any larger counter gives the same result), an
iteration that goes on does so with a window inside the old one and with a
strictly smaller `right - left`, and for a window with
`0 <= left <= right <= len-1` the call of `findLineStart` at the midpoint
returns an offset other than -1. -/
theorem binarySearch_terminates (buf target : List Nat) (find_start : Bool)
    (left right : Int) :
    (∀ n, (right - left + 1).toNat ≤ n →
        binarySearchLoop buf target find_start n left right =
          binarySearch buf target left right find_start) ∧
      (left ≤ right → ∀ l r,
        binarySearchStep buf target find_start left right = .ok (.next l r) →
          left ≤ l ∧ r ≤ right ∧ r - l < right - left) ∧
      (0 ≤ left → left ≤ right → right ≤ (buf.length : Int) - 1 →
        ∃ v, findLineStart buf (left + Int.tdiv (right - left) 2) = .ok v ∧ v ≠ -1) := by
  refine ⟨?_, ?_, ?_⟩
  · intro n hn
    exact binarySearchLoop_fuel buf target find_start n _ left right hn (le_refl _)
  · intro hlr l r hst
    have hb := mid_bounds left right hlr
    rcases binarySearchStep_next buf target find_start left right l r hst with
      ⟨rfl, rfl⟩ | ⟨rfl, rfl⟩ <;> omega
  · intro h0 hlr hr
    have hb := mid_bounds left right hlr
    obtain ⟨c1, _, c3⟩ := findLineStart_cases buf (left + Int.tdiv (right - left) 2)
    by_cases hmid : left + Int.tdiv (right - left) 2 ≤ 0
    · exact ⟨0, c1 hmid, by decide⟩
    · obtain ⟨v, hv, h1, _⟩ := c3 (by omega) (by omega)
      exact ⟨v, hv, by omega⟩

theorem binarySearch_terminates_witness :
    (0 : Int) ≤ 0 ∧ (0 : Int) ≤ 38 ∧ (38 : Int) ≤ (scenarioBuffer.length : Int) - 1 ∧
      (∃ v, findLineStart scenarioBuffer (0 + Int.tdiv (38 - 0) 2) = .ok v ∧ v ≠ -1) ∧
      binarySearchLoop scenarioBuffer (ascii "2024-01-01") true 100 0 38 =
        binarySearch scenarioBuffer (ascii "2024-01-01") 0 38 true :=
  ⟨by decide, by decide, by decide,
    (binarySearch_terminates scenarioBuffer (ascii "2024-01-01") true 0 38).2.2
      (by decide) (by decide) (by decide),
    (binarySearch_terminates scenarioBuffer (ascii "2024-01-01") true 0 38).1 100 (by decide)⟩

theorem binarySearchLoop_start_bounds (buf target : List Nat) (hi : Int)
    (fuel : Nat) (left right v : Int) (h0 : 0 ≤ left) (hr : right ≤ hi)
    (h : binarySearchLoop buf target true fuel left right = .ok v) :
    v = -1 ∨ (0 ≤ v ∧ v ≤ hi) := by
  refine binarySearchLoop_induct buf target true (fun l r => 0 ≤ l ∧ r ≤ hi)
    (fun v => 0 ≤ v ∧ v ≤ hi) ?_ ?_ fuel left right v ⟨h0, hr⟩ h
  · intro left right v hinv hlr hd
    have hb := mid_bounds left right hlr
    rcases binarySearchStep_done buf target true left right v hd with h1 | ⟨_, h2⟩ | ⟨h3, _⟩
    · exact Or.inl h1
    · by_cases hv : v = -1
      · exact Or.inl hv
      · right
        obtain ⟨r0, r1, r2, r3, -⟩ := findLineStart_result buf _ v h2 hv
        refine ⟨r0, ?_⟩
        by_cases hmid : left + Int.tdiv (right - left) 2 ≤ 0
        · have := r1 hmid
          omega
        · have := r3 (by omega)
          omega
    · exact absurd h3 (by decide)
  · intro left right l r hinv hlr hst
    have hb := mid_bounds left right hlr
    rcases binarySearchStep_next buf target true left right l r hst with
      ⟨rfl, rfl⟩ | ⟨rfl, rfl⟩ <;> omega

theorem binarySearchLoop_end_bounds (buf target : List Nat) (hne : buf ≠ []) (s : Int)
    (fuel : Nat) (left right v : Int) (hl : s ≤ left)
    (h : binarySearchLoop buf target false fuel left right = .ok v) :
    v = -1 ∨ (s < v ∧ v ≤ buf.length) := by
  have hlen : 0 < buf.length := List.length_pos.2 hne
  refine binarySearchLoop_induct buf target false (fun l _ => s ≤ l)
    (fun v => s < v ∧ v ≤ buf.length) ?_ ?_ fuel left right v hl h
  · intro left right v hinv hlr hd
    have hb := mid_bounds left right hlr
    rcases binarySearchStep_done buf target false left right v hd with
      h1 | ⟨h2, _⟩ | ⟨_, ls, hls, hne', hnl⟩
    · exact Or.inl h1
    · exact absurd h2 (by decide)
    · right
      obtain ⟨r0, r1, r2, r3, _, r5⟩ := findLineStart_result buf _ ls hls hne'
      obtain ⟨w, hw, hw1, _, hw3⟩ := findNextLine_result buf ls r0
      rw [hw] at hnl
      simp only [Outcome.ok.injEq] at hnl
      subst hnl
      have hinv' : s ≤ left := hinv
      by_cases hmid : left + Int.tdiv (right - left) 2 ≤ 0
      · have hz := r1 hmid
        have := hw3 0 (by omega) (by omega) (by omega) (fun j h1 h2 => by omega)
        exact ⟨by omega, hw1⟩
      · have hm := r3 (by omega)
        have hl' := r2 (by omega)
        have := hw3 (left + Int.tdiv (right - left) 2) hm.1 hl' hm.2 r5
        exact ⟨by omega, hw1⟩
  · intro left right l r hinv hlr hst
    have hb := mid_bounds left right hlr
    have hinv' : s ≤ left := hinv
    show s ≤ l
    rcases binarySearchStep_next buf target false left right l r hst with
      ⟨rfl, rfl⟩ | ⟨rfl, rfl⟩ <;> omega

/-- Claim C20: on a non-empty buffer and a window with `0 <= left` (in particular
`0 <= left <= right <= len-1`), when the first-occurrence search returns `s` and
the last-occurrence search over `[s, right]` returns `e`, both other than -1,
then `0 <= s < e <= len`. -/
theorem range_nonempty_in_bounds (buf target : List Nat) (left right s e : Int)
    (hne : buf ≠ []) (h0 : 0 ≤ left)
    (hs : binarySearch buf target left right true = .ok s) (hs1 : s ≠ -1)
    (he : binarySearch buf target s right false = .ok e) (he1 : e ≠ -1) :
    0 ≤ s ∧ s < e ∧ e ≤ buf.length := by
  have hs2 : 0 ≤ s ∧ s ≤ right := by
    rcases binarySearchLoop_start_bounds buf target right _ left right s h0 (le_refl _) hs with
      h | h
    · exact absurd h hs1
    · exact h
  rcases binarySearchLoop_end_bounds buf target hne s _ s right e (le_refl _) he with h | h
  · exact absurd h he1
  · exact ⟨hs2.1, h.1, h.2⟩

theorem range_nonempty_in_bounds_witness :
    scenarioBuffer ≠ [] ∧ (0 : Int) ≤ 0 ∧ (0 : Int) ≤ 38 ∧
      (38 : Int) ≤ (scenarioBuffer.length : Int) - 1 ∧
      binarySearch scenarioBuffer (ascii "2024-01-01") 0 38 true = .ok 13 ∧
      binarySearch scenarioBuffer (ascii "2024-01-01") 13 38 false = .ok 26 ∧
      ((0 : Int) ≤ 13 ∧ (13 : Int) < 26 ∧ (26 : Int) ≤ scenarioBuffer.length) :=
  ⟨by decide, by decide, by decide, by decide, by decide, by decide,
    range_nonempty_in_bounds scenarioBuffer (ascii "2024-01-01") 0 38 13 26 (by decide)
      (by decide) (by decide) (by decide) (by decide) (by decide)⟩

/-! ## The last-occurrence search on a well-formed sorted log -/

theorem strLess_irrefl : ∀ a : List Nat, strLess a a = false
  | [] => rfl
  | a :: as => by simp [strLess, strLess_irrefl as]

theorem findNextLine_record (rs : List Record) (s : Nat) (r : Record) (hr : RecordAt rs s r) :
    findNextLine (render rs) (s : Int) = .ok ((s : Int) + r.line.length) := by
  have hfit := hr.fits
  have hlen := hr.wf.2.2.2
  have hll := r.line_length
  have h := findNextLine_of_newline (render rs) (s : Int) ((s : Int) + r.line.length - 1)
    (by omega) (by omega) (by omega) (by omega)
    (by
      have := hr.last
      simp only [byteAt]
      have e : ((s : Int) + r.line.length - 1).toNat = s + r.line.length - 1 := by omega
      rw [e]; exact this)
    (by
      intro j h1 h2
      have := hr.inside j.toNat (by omega) (by omega)
      simpa [byteAt] using this)
  rw [h]; congr 1; omega

theorem readBytes_record (rs : List Record) (s : Nat) (r : Record) (hr : RecordAt rs s r) :
    readBytes (render rs) (s : Int) DATE_LENGTH = .ok r.date := by
  have hfit := hr.fits
  have hdl := isDateShape_length r.date hr.wf.1
  have hll := r.line_length
  rw [readBytes_ok _ _ _ (by omega) (by simp only [DATE_LENGTH]; omega)]
  congr 1
  have := hr.date_eq
  simpa [DATE_LENGTH] using this

theorem binarySearchStep_end_record (rs : List Record) (target : List Nat)
    (left right : Int) (s : Nat) (r : Record) (hr : RecordAt rs s r)
    (hfl : findLineStart (render rs) (left + Int.tdiv (right - left) 2) = .ok (s : Int)) :
    binarySearchStep (render rs) target false left right =
      if strLess r.date target then .ok (.next (left + Int.tdiv (right - left) 2 + 1) right)
      else if strLess target r.date then
        .ok (.next left (left + Int.tdiv (right - left) 2 - 1))
      else if (s : Int) + r.line.length ≥ (render rs).length then
        .ok (.done ((s : Int) + r.line.length))
      else
        (readBytes (render rs) ((s : Int) + r.line.length) DATE_LENGTH).bind fun following =>
          if following != target then .ok (.done ((s : Int) + r.line.length))
          else .ok (.next (left + Int.tdiv (right - left) 2 + 1) right) := by
  have hfit := hr.fits
  have hdl := isDateShape_length r.date hr.wf.1
  have hll := r.line_length
  have hs1 : ((s : Int) == -1) = false := by simp
  have hs2 : ¬ (toSize (s : Int) + (DATE_LENGTH : Nat) > ((render rs).length : Int)) := by
    rw [toSize_of_nonneg _ (by omega)]; simp only [DATE_LENGTH]; omega
  simp only [binarySearchStep, hfl, Outcome.bind, hs1, hs2, readBytes_record rs s r hr,
    findNextLine_record rs s r hr, toSize_of_nonneg ((s : Int) + r.line.length) (by omega),
    if_false, Bool.false_eq_true]

theorem wellFormed_of_mem_split (A B : List Record) (r : Record)
    (hwf : WellFormedLog (A ++ r :: B)) : r.wellFormed :=
  hwf.1 r (by simp)

theorem binarySearchLoop_last (pre grp post : List Record) (target : List Nat)
    (hwf : WellFormedLog (pre ++ grp ++ post)) (hg : grp ≠ [])
    (hgt : ∀ r ∈ grp, r.date = target) (hpt : ∀ r ∈ post, r.date ≠ target) :
    ∀ (fuel : Nat) (left right : Int), ((render pre).length : Int) ≤ left →
      left ≤ ((render (pre ++ grp)).length : Int) - 1 →
      ((render (pre ++ grp)).length : Int) - 1 ≤ right →
      right ≤ ((render (pre ++ grp ++ post)).length : Int) - 1 →
      right - left + 1 ≤ fuel →
      binarySearchLoop (render (pre ++ grp ++ post)) target false fuel left right =
        .ok ((render (pre ++ grp)).length : Int) := by
  have hE : (render (pre ++ grp)).length = (render pre).length + (render grp).length := by
    rw [render_append, List.length_append]
  have hL : (render (pre ++ grp ++ post)).length =
      (render pre).length + (render grp).length + (render post).length := by
    rw [render_append, render_append, List.length_append, List.length_append]
  obtain ⟨g0, hg0⟩ := List.exists_mem_of_ne_nil grp hg
  have hsorted : ∀ q ∈ post, strLess q.date target = false := by
    intro q hq
    have := (List.pairwise_append.1 hwf.2).2.2 g0 (by simp [hg0]) q hq
    rw [hgt g0 hg0] at this
    exact this
  intro fuel
  induction fuel with
  | zero => intro left right h1 h2 h3 h4 h5; omega
  | succ n ih =>
    intro left right h1 h2 h3 h4 h5
    have hlr : left ≤ right := by omega
    have hb := mid_bounds left right hlr
    simp only [binarySearchLoop, hlr, if_true]
    by_cases hmid : left + Int.tdiv (right - left) 2 < (render (pre ++ grp)).length
    · -- the midpoint lies in a record of the group
      obtain ⟨g1, r, g2, hgrp, hk1, hk2⟩ := render_locate grp
        ((left + Int.tdiv (right - left) 2).toNat - (render pre).length) (by omega)
      have hrs : pre ++ grp ++ post = (pre ++ g1) ++ r :: (g2 ++ post) := by
        rw [hgrp]; simp
      have hrw : r.wellFormed := by
        rw [hrs] at hwf; exact wellFormed_of_mem_split _ _ _ hwf
      have hr : RecordAt (pre ++ grp ++ post) (render (pre ++ g1)).length r := by
        rw [hrs]; exact recordAt_of_split _ _ _ hrw
      have hs : (render (pre ++ g1)).length = (render pre).length + (render g1).length := by
        rw [render_append, List.length_append]
      have hrd : r.date = target := hgt r (by rw [hgrp]; simp)
      have hfl := findLineStart_record _ _ r hr (left + Int.tdiv (right - left) 2)
        (by omega) (by omega)
      have hgl : (render grp).length =
          (render g1).length + r.line.length + (render g2).length := by
        rw [hgrp, render_split, List.length_append, List.length_append]; omega
      rw [binarySearchStep_end_record _ target left right _ r hr hfl]
      simp only [hrd, strLess_irrefl, Bool.false_eq_true, if_false]
      cases g2 with
      | nil =>
        have hg2 : (render ([] : List Record)).length = 0 := rfl
        cases post with
        | nil =>
          have hp : (render ([] : List Record)).length = 0 := rfl
          have hge : ((render (pre ++ g1)).length : Int) + r.line.length ≥
              (render (pre ++ grp ++ [])).length := by
            rw [hL]; omega
          simp only [hge, if_true, Outcome.bind]
          congr 1; omega
        | cons q post' =>
          have hrs2 : pre ++ grp ++ q :: post' = (pre ++ g1 ++ [r]) ++ q :: post' := by
            rw [hgrp]; simp
          have hqw : q.wellFormed := by
            rw [hrs2] at hwf; exact wellFormed_of_mem_split _ _ _ hwf
          have hq : RecordAt (pre ++ grp ++ q :: post') (render (pre ++ g1 ++ [r])).length q := by
            rw [hrs2]; exact recordAt_of_split _ _ _ hqw
          have hs2 : (render (pre ++ g1 ++ [r])).length =
              (render (pre ++ g1)).length + r.line.length := by
            rw [render_append (pre ++ g1) [r], List.length_append]
            simp [render]
          have hqfit := hq.fits
          have hnge : ¬ (((render (pre ++ g1)).length : Int) + r.line.length ≥
              (render (pre ++ grp ++ q :: post')).length) := by
            have := q.line_length
            omega
          have hread := readBytes_record _ _ q hq
          rw [hs2] at hread
          have hcast : (((render (pre ++ g1)).length + r.line.length : Nat) : Int) =
              ((render (pre ++ g1)).length : Int) + r.line.length := by push_cast; rfl
          rw [hcast] at hread
          have hqd : (q.date != target) = true := by
            simpa using hpt q (by simp)
          simp only [hnge, if_false, hread, Outcome.bind, hqd, if_true]
          congr 1; omega
      | cons r' g2' =>
        have hrs2 : pre ++ grp ++ post = (pre ++ g1 ++ [r]) ++ r' :: (g2' ++ post) := by
          rw [hgrp]; simp
        have hqw : r'.wellFormed := by
          rw [hrs2] at hwf; exact wellFormed_of_mem_split _ _ _ hwf
        have hq : RecordAt (pre ++ grp ++ post) (render (pre ++ g1 ++ [r])).length r' := by
          rw [hrs2]; exact recordAt_of_split _ _ _ hqw
        have hs2 : (render (pre ++ g1 ++ [r])).length =
            (render (pre ++ g1)).length + r.line.length := by
          rw [render_append (pre ++ g1) [r], List.length_append]
          simp [render]
        have hqfit := hq.fits
        have hql := r'.line_length
        have hnge : ¬ (((render (pre ++ g1)).length : Int) + r.line.length ≥
            (render (pre ++ grp ++ post)).length) := by
          omega
        have hread := readBytes_record _ _ r' hq
        rw [hs2] at hread
        have hcast : (((render (pre ++ g1)).length + r.line.length : Nat) : Int) =
            ((render (pre ++ g1)).length : Int) + r.line.length := by push_cast; rfl
        rw [hcast] at hread
        have hqd : (r'.date != target) = false := by
          simpa using hgt r' (by rw [hgrp]; simp)
        have hg2l : (render (r' :: g2')).length = r'.line.length + (render g2').length := by
          simp [render]
        simp only [hnge, if_false, hread, Outcome.bind, hqd, Bool.false_eq_true]
        exact ih _ _ (by omega) (by omega) h3 h4 (by omega)
    · -- the midpoint lies in a record after the group
      obtain ⟨p1, q, p2, hpost, hk1, hk2⟩ := render_locate post
        ((left + Int.tdiv (right - left) 2).toNat - (render (pre ++ grp)).length) (by omega)
      have hrs : pre ++ grp ++ post = (pre ++ grp ++ p1) ++ q :: p2 := by
        rw [hpost]; simp
      have hqw : q.wellFormed := by
        rw [hrs] at hwf; exact wellFormed_of_mem_split _ _ _ hwf
      have hq : RecordAt (pre ++ grp ++ post) (render (pre ++ grp ++ p1)).length q := by
        rw [hrs]; exact recordAt_of_split _ _ _ hqw
      have hs : (render (pre ++ grp ++ p1)).length =
          (render (pre ++ grp)).length + (render p1).length := by
        rw [render_append (pre ++ grp) p1, List.length_append]
      have hqm : q ∈ post := by rw [hpost]; simp
      have hfl := findLineStart_record _ _ q hq (left + Int.tdiv (right - left) 2)
        (by omega) (by omega)
      have hlt1 : strLess q.date target = false := hsorted q hqm
      have hlt2 : strLess target q.date = true := by
        by_contra hcon
        exact hpt q hqm (strLess_antisymm _ _ hlt1 (by simpa using hcon))
      rw [binarySearchStep_end_record _ target left right _ q hq hfl]
      simp only [hlt1, hlt2, Bool.false_eq_true, if_false, if_true, Outcome.bind]
      exact ih _ _ h1 h2 (by omega) (by omega) (by omega)

/-- Claim C16: in a well-formed sorted log, from the start of any record of the
target date and over the window up to `len - 1`, the last-occurrence search
returns the offset just after the last record of the target date: the start of
the first record that follows with another date, or `len` when none follows. -/
theorem binarySearch_last_occurrence (pre grp post : List Record) (target : List Nat)
    (hwf : WellFormedLog (pre ++ grp ++ post)) (hg : grp ≠ [])
    (hgt : ∀ r ∈ grp, r.date = target) (hpt : ∀ r ∈ post, r.date ≠ target) :
    binarySearch (render (pre ++ grp ++ post)) target ((render pre).length : Int)
        (((render (pre ++ grp ++ post)).length : Int) - 1) false =
      .ok ((render (pre ++ grp)).length : Int) ∧
      (post = [] → (render (pre ++ grp)).length = (render (pre ++ grp ++ post)).length) ∧
      (∀ q ∈ post, strLess target q.date = true) := by
  have hE : (render (pre ++ grp)).length = (render pre).length + (render grp).length := by
    rw [render_append, List.length_append]
  have hL : (render (pre ++ grp ++ post)).length =
      (render pre).length + (render grp).length + (render post).length := by
    rw [render_append, render_append, List.length_append, List.length_append]
  obtain ⟨g0, gs, rfl⟩ := List.exists_cons_of_ne_nil hg
  have hgl : (render (g0 :: gs)).length = g0.line.length + (render gs).length := by
    simp [render]
  have hg0 := g0.line_length
  refine ⟨?_, ?_, ?_⟩
  · unfold binarySearch
    exact binarySearchLoop_last pre (g0 :: gs) post target hwf hg hgt hpt _ _ _ (le_refl _)
      (by omega) (by omega) (le_refl _) (by omega)
  · rintro rfl
    simp
  · intro q hq
    have h1 := (List.pairwise_append.1 hwf.2).2.2 g0 (by simp) q hq
    rw [hgt g0 (by simp)] at h1
    by_contra hcon
    exact hpt q hq (strLess_antisymm _ _ h1 (by simpa using hcon))

theorem binarySearch_last_occurrence_witness :
    WellFormedLog ([] ++ scenarioLog.take 2 ++ scenarioLog.drop 2) ∧
      scenarioLog.take 2 ≠ [] ∧
      (∀ r ∈ scenarioLog.take 2, r.date = ascii "2024-01-01") ∧
      (∀ r ∈ scenarioLog.drop 2, r.date ≠ ascii "2024-01-01") ∧
      render ([] ++ scenarioLog.take 2 ++ scenarioLog.drop 2) = scenarioBuffer ∧
      binarySearch scenarioBuffer (ascii "2024-01-01") 0 38 false = .ok 26 :=
  ⟨by decide, by decide, by decide, by decide, by decide,
    (binarySearch_last_occurrence [] (scenarioLog.take 2) (scenarioLog.drop 2)
      (ascii "2024-01-01") (by decide) (by decide) (by decide) (by decide)).1⟩

/-! ## The position estimate -/

end LogRetriever
